import Mathlib

/-!
Verification of the DealMate in-browser heuristic engines.

This file shallowly embeds the two algorithmic modules of the repository:

* the StackSmart deal-stacking optimizer (`StackOptimizer` and its helpers),
  from the stacking-engine source file; and
* the fraud-detection engine (`FraudDetectionEngine`, with its `MinHeap` and
  `Trie` helper structures), from `src/lib/fraud-detection/fraud-detection-engine.ts`.

Modelling conventions:
* JS numbers are embedded as `ℚ` (the engines only add, subtract, multiply,
  divide and compare; no claim depends on float rounding).
* JS strings are embedded as `String`, and pattern matching over characters
  works on `String.toList`.
* `Map` objects and plain-object dictionaries are embedded as association
  lists; insertion order is irrelevant to every claim.
* Mutable instance state (`memoCache`, the fraud engine's caches and heap) is
  embedded by explicit state passing: each method of the TS class becomes a
  function taking and returning the state record.
* The wall-clock cutoff `Date.now() - startTime < timeLimit` of the
  branch-and-bound loop is embedded as an explicit iteration budget (`fuel`):
  one unit per loop iteration, with the timeout warning emitted exactly when
  the budget runs out while work remains.
* JS truthiness tests on optional numeric fields (`deal.minPurchase &&`,
  `deal.maxDiscount`, `constraints.maxDeals || 5`, threshold `|| default`)
  are embedded as `Option` matches that also treat the value `0` as absent,
  matching JS where `0` is falsy.
-/

namespace DealMate

namespace StackSmart

/-- The TS union type `'coupon' | 'cashback' | 'points' | 'discount' | 'gift-card'`. -/
inductive DealType where
  | coupon
  | cashback
  | points
  | discount
  | giftCard
deriving DecidableEq, Inhabited

/-- The TS union type `'percentage' | 'fixed'`. -/
inductive ValueType where
  | percentage
  | fixed
deriving DecidableEq, Inhabited

/-- The `Deal` record of the stacking engine (source `interface Deal`). -/
structure Deal where
  id : String
  dtype : DealType
  code : Option String := none
  value : ℚ
  valueType : ValueType
  minPurchase : Option ℚ := none
  maxDiscount : Option ℚ := none
  category : Option (List String) := none
  excludes : Option (List String) := none
  stackable : Bool
  stacksWith : Option (List DealType) := none
  priority : ℤ
  expiresAt : Option String := none
deriving DecidableEq, Inhabited

/-- Source `interface StackBreakdown`. -/
structure StackBreakdown where
  dealId : String
  dealName : String
  savings : ℚ
  priceAfter : ℚ
  applied : Bool
  reason : Option String := none
deriving DecidableEq, Inhabited

/-- The result record produced by `branchAndBound` and `findAlternatives`:
a `StackResult` whose optional `alternativeStacks` field is absent
(the source only ever sets `alternativeStacks` on the top-level result
of `optimize`, so the recursive TS type is flattened into this record plus
`StackResult` below). -/
structure BBResult where
  deals : List Deal
  totalSavings : ℚ
  finalPrice : ℚ
  breakdown : List StackBreakdown
  warnings : Option (List String) := none
deriving DecidableEq, Inhabited

/-- Source `interface StackResult` as returned by `optimize`. -/
structure StackResult where
  deals : List Deal
  totalSavings : ℚ
  finalPrice : ℚ
  breakdown : List StackBreakdown
  warnings : Option (List String) := none
  alternativeStacks : Option (List BBResult) := none
deriving DecidableEq, Inhabited

/-- Source `interface OptimizationConstraints`.  `timeLimit` configures a
wall-clock budget; in the embedding the budget is the explicit `fuel`
argument of the search, so the field is carried but drives nothing. -/
structure OptimizationConstraints where
  maxDeals : Option ℕ := none
  preferredTypes : Option (List DealType) := none
  excludeTypes : Option (List DealType) := none
  minSavings : Option ℚ := none
  timeLimit : Option ℕ := none
deriving DecidableEq, Inhabited

/-- The empty constraints object `{}` used as the default argument. -/
def noConstraints : OptimizationConstraints := {}

/-- JS `Math.max` on rationals (neither engine ever feeds it a NaN). -/
def mathMax (a b : ℚ) : ℚ := if a ≤ b then b else a

/-- JS `Math.min` on rationals. -/
def mathMin (a b : ℚ) : ℚ := if a ≤ b then a else b

/-- Source `canStackSameType`: only cashback and points stack with themselves. -/
def canStackSameType (t : DealType) : Bool :=
  t = DealType.cashback || t = DealType.points

/-- Source `canStackDeal deal existingDeals`. -/
def canStackDeal (deal : Deal) (existingDeals : List Deal) : Bool :=
  if !deal.stackable && existingDeals.length > 0 then false
  else
    existingDeals.all fun existing =>
      existing.stackable &&
      (match existing.stacksWith with
       | some l => l.contains deal.dtype
       | none => true) &&
      (match deal.stacksWith with
       | some l => l.contains existing.dtype
       | none => true) &&
      (existing.dtype ≠ deal.dtype || canStackSameType deal.dtype)

/-- Source `applyDeal currentPrice deal basePrice`.  The `basePrice`
parameter is carried but unused, exactly as in the source body.
`deal.minPurchase &&` and `deal.maxDiscount` are JS truthiness tests, so a
stored `0` behaves like an absent field. -/
def applyDeal (currentPrice : ℚ) (deal : Deal) (basePrice : ℚ) : ℚ :=
  let _ := basePrice
  if (match deal.minPurchase with
      | some mp => mp ≠ 0 && decide (currentPrice < mp)
      | none => false) then
    currentPrice
  else
    let discount :=
      if deal.valueType = ValueType.percentage then
        let d := currentPrice * (deal.value / 100)
        match deal.maxDiscount with
        | some md => if md ≠ 0 then mathMin d md else d
        | none => d
      else
        deal.value
    mathMax 0 (currentPrice - discount)

/-- Source `calculateDealValue`. -/
def calculateDealValue (currentPrice : ℚ) (deal : Deal) (basePrice : ℚ) : ℚ :=
  currentPrice - applyDeal currentPrice deal basePrice

/-- Loop body of source `calculateBound`: walks the remaining deals in order,
summing each deal's value at the running price and stopping once the running
price reaches zero.  `origPrice` is the (constant) `currentPrice` argument
that the source passes as third argument to `calculateDealValue`. -/
def calcBoundList (price : ℚ) (origPrice : ℚ) : List Deal → ℚ
  | [] => 0
  | d :: rest =>
    let potential := calculateDealValue price d origPrice
    if price - potential ≤ 0 then potential
    else potential + calcBoundList (price - potential) origPrice rest

/-- Source `calculateBound currentPrice deals startIndex`. -/
def calculateBound (currentPrice : ℚ) (deals : List Deal) (startIndex : ℕ) : ℚ :=
  calcBoundList currentPrice currentPrice (deals.drop startIndex)

/-- String form of a deal type, as interpolated by the source into
breakdown names (the TS union members are string literals). -/
def dealTypeStr : DealType → String
  | DealType.coupon => "coupon"
  | DealType.cashback => "cashback"
  | DealType.points => "points"
  | DealType.discount => "discount"
  | DealType.giftCard => "gift-card"

/-- Display name of a deal in a breakdown entry, source
`deal.code || type - value%`-template.  `toString` on `ℚ` stands in for JS
number interpolation; an empty `code` string is falsy in JS and falls
through to the template. -/
def dealDisplayName (deal : Deal) : String :=
  match deal.code with
  | some c => if c = "" then
      dealTypeStr deal.dtype ++ " - " ++ toString deal.value ++
        (if deal.valueType = ValueType.percentage then "%" else "")
    else c
  | none =>
      dealTypeStr deal.dtype ++ " - " ++ toString deal.value ++
        (if deal.valueType = ValueType.percentage then "%" else "")

/-- Source `generateBreakdown basePrice deals`. -/
def generateBreakdownFrom (currentPrice : ℚ) (basePrice : ℚ) : List Deal → List StackBreakdown
  | [] => []
  | deal :: rest =>
    let newPrice := applyDeal currentPrice deal basePrice
    let savings := currentPrice - newPrice
    { dealId := deal.id
      dealName := dealDisplayName deal
      savings := savings
      priceAfter := newPrice
      applied := savings > 0
      reason := if savings = 0 then some "Minimum purchase not met or no additional savings" else none }
      :: generateBreakdownFrom newPrice basePrice rest

def generateBreakdown (basePrice : ℚ) (deals : List Deal) : List StackBreakdown :=
  generateBreakdownFrom basePrice basePrice deals

/-- A node of the branch-and-bound search stack. -/
structure BBNode where
  index : ℕ
  currentDeals : List Deal
  currentPrice : ℚ
  bound : ℚ
deriving DecidableEq, Inhabited

/-- The warning message pushed when the search runs out of time. -/
def timeLimitWarning : String :=
  "Optimization time limit reached. Result may not be optimal."

/-- One non-pruned iteration of the `while` loop of source
`branchAndBound`: try including the deal at `node.index` (possibly
improving the best result and pushing the include-successor node), then
push the exclude-successor node.  The stack is a list whose head is the
top (JS `push`/`pop` operate at the array end), so the exclude node —
pushed last — ends up at the head.  Returns the new stack and best. -/
def bbInclude (basePrice : ℚ) (deals : List Deal) (maxDeals : ℕ)
    (node : BBNode) (rest : List BBNode) (best : BBResult) :
    List BBNode × BBResult :=
  if node.index < deals.length ∧ node.currentDeals.length < maxDeals then
    match deals[node.index]? with
    | some deal =>
      if canStackDeal deal node.currentDeals then
        let newPrice := applyDeal node.currentPrice deal basePrice
        let newDeals := node.currentDeals ++ [deal]
        let savings := basePrice - newPrice
        let best' :=
          if best.totalSavings < savings then
            { deals := newDeals
              totalSavings := savings
              finalPrice := newPrice
              breakdown := generateBreakdown basePrice newDeals }
          else best
        let stack' :=
          if node.index + 1 < deals.length then
            ({ index := node.index + 1
               currentDeals := newDeals
               currentPrice := newPrice
               bound := calculateBound newPrice deals (node.index + 1) } : BBNode) :: rest
          else rest
        (stack', best')
      else (rest, best)
    | none => (rest, best)
  else (rest, best)

def bbStep (basePrice : ℚ) (deals : List Deal) (maxDeals : ℕ)
    (node : BBNode) (rest : List BBNode) (best : BBResult) :
    List BBNode × BBResult :=
  let inc := bbInclude basePrice deals maxDeals node rest best
  -- try not including the current deal (pushed last, popped first)
  (if node.index + 1 < deals.length then
      ({ index := node.index + 1
         currentDeals := node.currentDeals
         currentPrice := node.currentPrice
         bound := node.bound } : BBNode) :: inc.1
    else inc.1,
   inc.2)

/-- The `while` loop of source `branchAndBound`.  One unit of `fuel`
corresponds to one loop iteration, and exhausting the fuel while the
stack is non-empty models the wall-clock cutoff firing.  Returns the best
result found together with a flag telling whether the cutoff fired. -/
def bbLoop (basePrice : ℚ) (deals : List Deal) (maxDeals : ℕ) :
    ℕ → List BBNode → BBResult → BBResult × Bool
  | 0, stack, best => (best, !stack.isEmpty)
  | _ + 1, [], best => (best, false)
  | fuel + 1, node :: rest, best =>
    if node.bound ≤ best.totalSavings then
      bbLoop basePrice deals maxDeals fuel rest best
    else
      let s := bbStep basePrice deals maxDeals node rest best
      bbLoop basePrice deals maxDeals fuel s.1 s.2

/-- Source `branchAndBound basePrice deals maxDeals startTime timeLimit`,
with the wall-clock budget expressed as `fuel` loop iterations. -/
def branchAndBound (basePrice : ℚ) (deals : List Deal) (maxDeals : ℕ) (fuel : ℕ) : BBResult :=
  let init : BBNode :=
    { index := 0
      currentDeals := []
      currentPrice := basePrice
      bound := calculateBound basePrice deals 0 }
  let start : BBResult :=
    { deals := []
      totalSavings := 0
      finalPrice := basePrice
      breakdown := [] }
  let r := bbLoop basePrice deals maxDeals fuel [init] start
  if r.2 then { r.1 with warnings := some [timeLimitWarning] } else r.1

/-- Stable insertion into a sorted list: `a` is placed before the first
element `b` with `le a b`, so among comparator-equal elements the earlier
original element comes first. -/
def insertSorted (le : α → α → Bool) (a : α) : List α → List α
  | [] => [a]
  | b :: bs => if le a b then a :: b :: bs else b :: insertSorted le a bs

/-- Stable sort by a boolean `≤`-test.  JS `Array.prototype.sort` is
required to be stable, and for a total-preorder comparator a stable sort
has a unique result, so this structurally recursive stable sort embeds the
engine's sorts faithfully (all comparators below are total preorders). -/
def stableSortBy (le : α → α → Bool) : List α → List α
  | [] => []
  | a :: as => insertSorted le a (stableSortBy le as)

/-- Comparator of source `sortDeals` as a `≤`-test: `a` may precede `b`
iff the numeric comparator `(a, b) ↦ pri b - pri a`, falling back to
potential value, is `≤ 0`. -/
def sortDealsLE (basePrice : ℚ) (a b : Deal) : Bool :=
  if a.priority ≠ b.priority then decide (b.priority ≤ a.priority)
  else
    decide (calculateDealValue basePrice b basePrice ≤ calculateDealValue basePrice a basePrice)

/-- Source `sortDeals deals basePrice`. -/
def sortDeals (deals : List Deal) (basePrice : ℚ) : List Deal :=
  stableSortBy (sortDealsLE basePrice) deals

/-- Source `applyConstraints deals constraints`; `?.length` is a JS
truthiness test, so an empty preferred/excluded list disables the filter. -/
def applyConstraintsFilter (deals : List Deal) (constraints : OptimizationConstraints) : List Deal :=
  let f1 :=
    match constraints.preferredTypes with
    | some l => if l.length > 0 then deals.filter (fun d => l.contains d.dtype) else deals
    | none => deals
  match constraints.excludeTypes with
  | some l => if l.length > 0 then f1.filter (fun d => !l.contains d.dtype) else f1
  | none => f1

/-- `constraints.maxDeals || 5` (JS `||`, so `0` falls back to `5`). -/
def maxDealsOf (constraints : OptimizationConstraints) : ℕ :=
  match constraints.maxDeals with
  | some m => if m = 0 then 5 else m
  | none => 5

/-- Source `getDealComboKey`: the sorted deal ids (joined with `-` in JS;
the embedding keeps the sorted list, which carries the same information). -/
def getDealComboKey (deals : List Deal) : List String :=
  stableSortBy (fun a b => decide (a ≤ b)) (deals.map (·.id))

/-- Loop of source `findAlternatives`: rotate the deal list, re-run the
search, and keep up to `maxAlternatives` distinct profitable combinations. -/
def altLoop (basePrice : ℚ) (deals : List Deal) (maxAlternatives : ℕ) (fuel : ℕ) :
    List ℕ → List BBResult → List (List String) → List BBResult
  | [], alts, _ => alts
  | i :: is, alts, used =>
    let reordered := deals.drop i ++ deals.take i
    let altResult := branchAndBound basePrice reordered 5 fuel
    let comboKey := getDealComboKey altResult.deals
    if ¬ used.contains comboKey ∧ altResult.totalSavings > 0 then
      let alts' := alts ++ [altResult]
      if alts'.length ≥ maxAlternatives then alts'
      else altLoop basePrice deals maxAlternatives fuel is alts' (used ++ [comboKey])
    else altLoop basePrice deals maxAlternatives fuel is alts used

/-- Source `findAlternatives basePrice deals bestResult maxAlternatives`,
ending with the stable sort by descending `totalSavings`. -/
def findAlternatives (basePrice : ℚ) (deals : List Deal) (bestResult : BBResult)
    (maxAlternatives : ℕ) (fuel : ℕ) : List BBResult :=
  let used := [getDealComboKey bestResult.deals]
  let alts := altLoop basePrice deals maxAlternatives fuel (List.range (min deals.length 5)) [] used
  stableSortBy (fun a b => decide (b.totalSavings ≤ a.totalSavings)) alts

/-- The memoization key of source `getCacheKey`: base price, the sorted
deal ids, and the constraints.  The source builds a string
`price-ids-JSON(constraints)`; the embedding keeps the same three
components as a record, which is keyed on exactly the information the
string encodes. -/
structure CacheKey where
  basePrice : ℚ
  dealIds : List String
  constraints : OptimizationConstraints
deriving DecidableEq, Inhabited

def getCacheKey (basePrice : ℚ) (deals : List Deal)
    (constraints : OptimizationConstraints) : CacheKey :=
  { basePrice := basePrice
    dealIds := stableSortBy (fun a b => decide (a ≤ b)) (deals.map (·.id))
    constraints := constraints }

/-- The `memoCache` field of the `StackOptimizer` instance, as an
association list. -/
def MemoCache : Type := List (CacheKey × StackResult)

def memoLookup : List (CacheKey × StackResult) → CacheKey → Option StackResult
  | [], _ => none
  | (k, v) :: rest, key => if k = key then some v else memoLookup rest key

/-- Source `optimize basePrice availableDeals constraints`, with the
`memoCache` instance state passed and returned explicitly and the
wall-clock budget expressed as `fuel`. -/
def optimize (cache : List (CacheKey × StackResult)) (basePrice : ℚ)
    (availableDeals : List Deal) (constraints : OptimizationConstraints) (fuel : ℕ) :
    StackResult × List (CacheKey × StackResult) :=
  let cacheKey := getCacheKey basePrice availableDeals constraints
  match memoLookup cache cacheKey with
  | some cached => (cached, cache)
  | none =>
    let sortedDeals := sortDeals availableDeals basePrice
    let filteredDeals := applyConstraintsFilter sortedDeals constraints
    let core := branchAndBound basePrice filteredDeals (maxDealsOf constraints) fuel
    let alts :=
      if core.totalSavings > 0 then
        some (findAlternatives basePrice filteredDeals core 3 fuel)
      else none
    let result : StackResult :=
      { deals := core.deals
        totalSavings := core.totalSavings
        finalPrice := core.finalPrice
        breakdown := core.breakdown
        warnings := core.warnings
        alternativeStacks := alts }
    (result, (cacheKey, result) :: cache)

/-- Price after applying a list of deals in order, each via `applyDeal`
(the same chaining `branchAndBound` and `generateBreakdown` perform). -/
def applySeq (basePrice : ℚ) (deals : List Deal) : ℚ :=
  deals.foldl (fun p d => applyDeal p d basePrice) basePrice

/-- A list of deals is mutually stackable when each deal passes
`canStackDeal` against the deals before it — exactly the compatibility
check the search performs along a branch. -/
def compatibleChainFrom (acc : List Deal) : List Deal → Bool
  | [] => true
  | d :: ds => canStackDeal d acc && compatibleChainFrom (acc ++ [d]) ds

def compatibleChain (deals : List Deal) : Bool :=
  compatibleChainFrom [] deals

/-- A concrete stackable fixed-60-off coupon (priority 2). -/
def dealA60 : Deal :=
  { id := "A", dtype := DealType.coupon, value := 60, valueType := ValueType.fixed
    stackable := true, priority := 2 }

/-- A concrete stackable fixed-10-off discount (priority 1). -/
def dealB10 : Deal :=
  { id := "B", dtype := DealType.discount, value := 10, valueType := ValueType.fixed
    stackable := true, priority := 1 }

end StackSmart

namespace FraudDetection

/-- JS `Math.max` on rationals. -/
def mathMax (a b : ℚ) : ℚ := if a ≤ b then b else a

/-- JS `Math.min` on rationals. -/
def mathMin (a b : ℚ) : ℚ := if a ≤ b then a else b

/-- Generic association-list lookup, embedding `Map.get` /
plain-object indexing. -/
def alookup {β : Type} : List (String × β) → String → Option β
  | [], _ => none
  | (k, v) :: rest, key => if k = key then some v else alookup rest key

/-- `Map.set`: replace the binding in place if the key exists, else append. -/
def aset {β : Type} : List (String × β) → String → β → List (String × β)
  | [], key, v => [(key, v)]
  | (k, w) :: rest, key, v =>
    if k = key then (key, v) :: rest else (k, w) :: aset rest key v

/-- The entry type the engine stores in its anomaly `MinHeap`
(`{ dealId: string; anomalyScore: number }`).  The source `MinHeap<T>` is
generic; the embedding instantiates `T` at this entry type (its only use)
and keeps the comparator as a parameter. -/
structure AnomalyEntry where
  dealId : String
  anomalyScore : ℚ
deriving DecidableEq, Inhabited

/-- The comparator the engine passes to its anomaly heap:
`(a, b) => b.anomalyScore - a.anomalyScore` (so the "min"-heap is a
max-heap on scores). -/
def anomalyCmp (a b : AnomalyEntry) : ℚ :=
  b.anomalyScore - a.anomalyScore

/-- Indexing `this.heap[i]` (always used in bounds in the source). -/
def hget (l : List AnomalyEntry) (i : ℕ) : AnomalyEntry :=
  l.getD i default

/-- The JS destructuring swap `[h[i], h[j]] = [h[j], h[i]]`. -/
def hswap (l : List AnomalyEntry) (i j : ℕ) : List AnomalyEntry :=
  (l.set i (hget l j)).set j (hget l i)

/-- Source `MinHeap.heapifyUp` (for `index = 0` the parent index `-1`
fails the `parentIndex >= 0` guard and the walk stops). -/
def heapifyUp (cmp : AnomalyEntry → AnomalyEntry → ℚ)
    (l : List AnomalyEntry) (i : ℕ) : List AnomalyEntry :=
  if h : i = 0 then l
  else
    let p := (i - 1) / 2
    if cmp (hget l i) (hget l p) < 0 then heapifyUp cmp (hswap l i p) p else l
termination_by i
decreasing_by
  exact Nat.lt_of_le_of_lt (Nat.div_le_self _ 2) (Nat.pred_lt h)

/-- Source `MinHeap.insert`: push at the end, then bubble up from the last
index. -/
def heapInsert (cmp : AnomalyEntry → AnomalyEntry → ℚ)
    (l : List AnomalyEntry) (v : AnomalyEntry) : List AnomalyEntry :=
  heapifyUp cmp (l ++ [v]) ((l ++ [v]).length - 1)

/-- The `smallest` index computed by one round of source
`MinHeap.heapifyDown`. -/
def smallestIdx (cmp : AnomalyEntry → AnomalyEntry → ℚ)
    (l : List AnomalyEntry) (i : ℕ) : ℕ :=
  let leftChild := 2 * i + 1
  let rightChild := 2 * i + 2
  let s1 :=
    if leftChild < l.length ∧ cmp (hget l leftChild) (hget l i) < 0 then leftChild else i
  if rightChild < l.length ∧ cmp (hget l rightChild) (hget l s1) < 0 then rightChild else s1

/-- Source `MinHeap.heapifyDown`. -/
def heapifyDown (cmp : AnomalyEntry → AnomalyEntry → ℚ)
    (l : List AnomalyEntry) (i : ℕ) : List AnomalyEntry :=
  let s := smallestIdx cmp l i
  if h : s ≠ i then heapifyDown cmp (hswap l i s) s else l
termination_by l.length - i
decreasing_by
  have hlen : (hswap l i (smallestIdx cmp l i)).length = l.length := by
    simp [hswap, List.length_set]
  have h' : smallestIdx cmp l i ≠ i := h
  have key : i < smallestIdx cmp l i ∧ smallestIdx cmp l i < l.length := by
    unfold smallestIdx at h' ⊢
    dsimp only at h' ⊢
    by_cases h2 : 2*i+2 < l.length ∧
        cmp (hget l (2*i+2))
          (hget l (if 2*i+1 < l.length ∧ cmp (hget l (2*i+1)) (hget l i) < 0 then 2*i+1 else i)) < 0
    · rw [if_pos h2]
      exact ⟨by omega, h2.1⟩
    · rw [if_neg h2] at h' ⊢
      by_cases h1 : 2*i+1 < l.length ∧ cmp (hget l (2*i+1)) (hget l i) < 0
      · rw [if_pos h1]
        exact ⟨by omega, h1.1⟩
      · rw [if_neg h1] at h'
        exact absurd rfl h'
  show (hswap l i (smallestIdx cmp l i)).length - smallestIdx cmp l i < l.length - i
  rw [hlen]
  omega

/-- Source `MinHeap.extractMin`: empty heap gives `undefined`; a singleton
is popped directly; otherwise the root is replaced by the popped last
element and sifted down. -/
def extractMin (cmp : AnomalyEntry → AnomalyEntry → ℚ)
    (l : List AnomalyEntry) : Option AnomalyEntry × List AnomalyEntry :=
  match l with
  | [] => (none, [])
  | [x] => (some x, [])
  | x :: y :: rest =>
    let full := x :: y :: rest
    let lastEntry := hget full (full.length - 1)
    (some x, heapifyDown cmp (full.dropLast.set 0 lastEntry) 0)

/-- Nodes of the source `Trie`: children as an association list over
characters (embedding the `Map<string, TrieNode>`), plus the
end-of-pattern flag. -/
inductive TrieNode where
  | mk : List (Char × TrieNode) → Bool → TrieNode

def TrieNode.children : TrieNode → List (Char × TrieNode)
  | .mk cs _ => cs

def TrieNode.isEndOfPattern : TrieNode → Bool
  | .mk _ e => e

/-- `new TrieNode()`. -/
def emptyTrieNode : TrieNode := .mk [] false

def findChild : List (Char × TrieNode) → Char → Option TrieNode
  | [], _ => none
  | (c, n) :: rest, ch => if c = ch then some n else findChild rest ch

def setChild : List (Char × TrieNode) → Char → TrieNode → List (Char × TrieNode)
  | [], ch, n => [(ch, n)]
  | (c, m) :: rest, ch, n =>
    if c = ch then (ch, n) :: rest else (c, m) :: setChild rest ch n

/-- Source `Trie.insert` (walk the pattern, creating nodes as needed, and
mark the final node). -/
def TrieNode.insertPat : TrieNode → List Char → TrieNode
  | .mk cs _, [] => .mk cs true
  | .mk cs e, ch :: rest =>
    let child := match findChild cs ch with
      | some n => n
      | none => emptyTrieNode
    .mk (setChild cs ch (child.insertPat rest)) e

/-- Source `Trie.searchFromIndex`: walk from the given start, reporting a
match as soon as a visited node (after at least one character) ends a
pattern. -/
def matchFrom : TrieNode → List Char → Bool
  | _, [] => false
  | node, ch :: rest =>
    match findChild node.children ch with
    | none => false
    | some n => if n.isEndOfPattern then true else matchFrom n rest

/-- Source `Trie.search`: try every start index. -/
def trieSearch (root : TrieNode) : List Char → Bool
  | [] => false
  | ch :: rest => matchFrom root (ch :: rest) || trieSearch root rest

/-- The language of a trie node: the flagged words reachable from it
(used to state what `search` finds; not part of the source). -/
def acceptsB : TrieNode → List Char → Bool
  | n, [] => n.isEndOfPattern
  | n, ch :: rest =>
    match findChild n.children ch with
    | none => false
    | some m => acceptsB m rest

/-- Source `interface Deal` of the fraud engine. -/
structure Deal where
  id : String
  title : String
  originalPrice : ℚ
  discountedPrice : ℚ
  category : String
  sellerId : String
  url : String
  timestamp : ℤ
deriving DecidableEq, Inhabited

/-- Source `interface Seller`. -/
structure Seller where
  id : String
  name : String
  rating : ℚ
  reviewCount : ℕ
deriving DecidableEq, Inhabited

structure PricePoint where
  price : ℚ
  timestamp : ℤ
deriving DecidableEq, Inhabited

/-- Source `interface PriceHistory`. -/
structure PriceHistory where
  productId : String
  prices : List PricePoint
deriving DecidableEq, Inhabited

/-- Source `interface FraudCheckResult`. -/
structure FraudCheckResult where
  isFraudulent : Bool
  fraudType : Option String := none
  confidence : ℚ
  reason : Option String := none
deriving DecidableEq, Inhabited

/-- The mutable instance state of `FraudDetectionEngine`, passed
explicitly. -/
structure EngineState where
  phishingTrie : TrieNode
  userActivityCache : List (String × List ℤ)
  anomalyHeap : List AnomalyEntry
  sellerReputationCache : List (String × Seller)
  priceHistoryCache : List (String × PriceHistory)

/-- The `categoryThresholds` dictionary set in the constructor. -/
def categoryThresholds : List (String × ℚ) :=
  [("electronics", 7/10), ("fashion", 9/10), ("home", 4/5),
   ("food", 3/5), ("default", 17/20)]

/-- `this.categoryThresholds[deal.category] || this.categoryThresholds.default`
(JS `||` also falls through on a stored `0`; no stored threshold is `0`). -/
def thresholdFor (category : String) : ℚ :=
  match alookup categoryThresholds category with
  | some t => if t = 0 then 17/20 else t
  | none => 17/20

/-- `url.toLowerCase()` as a character list (the engine's patterns and URLs
are ASCII). -/
def toLowerList (s : String) : List Char :=
  s.toList.map Char.toLower

/-- Loop of source `detectFakeDeals`, threading the anomaly heap. -/
def detectFakeDealsLoop (heap : List AnomalyEntry) :
    List Deal → List FraudCheckResult × List AnomalyEntry
  | [] => ([], heap)
  | deal :: rest =>
    let discountPercentage :=
      (deal.originalPrice - deal.discountedPrice) / deal.originalPrice * 100
    let thresholdPercentage := thresholdFor deal.category * 100
    if thresholdPercentage < discountPercentage then
      let anomalyScore := discountPercentage - thresholdPercentage
      let heap' := heapInsert anomalyCmp heap ⟨deal.id, anomalyScore⟩
      let r : FraudCheckResult :=
        { isFraudulent := true
          fraudType := some "fake_deal"
          confidence := mathMin (anomalyScore / 20) (95/100)
          reason := some ("Discount of " ++ toString discountPercentage ++
            "% exceeds category threshold of " ++ toString thresholdPercentage ++ "%") }
      let res := detectFakeDealsLoop heap' rest
      (r :: res.1, res.2)
    else
      detectFakeDealsLoop heap rest

/-- Source `detectFakeDeals` (the interpolated reason uses `toString` in
place of JS `toFixed(1)` number formatting). -/
def detectFakeDeals (st : EngineState) (deals : List Deal) :
    List FraudCheckResult × EngineState :=
  let (rs, h) := detectFakeDealsLoop st.anomalyHeap deals
  (rs, { st with anomalyHeap := h })

/-- Loop of source `detectCounterfeitProducts` over the requested seller
ids (thresholds 3.5 and 50 inlined from the local constants). -/
def detectCounterfeitLoop (cache : List (String × Seller)) :
    List String → List FraudCheckResult
  | [] => []
  | sellerId :: rest =>
    match alookup cache sellerId with
    | none => detectCounterfeitLoop cache rest
    | some seller =>
      if seller.rating < 7/2 ∨ seller.reviewCount < 50 then
        { isFraudulent := true
          fraudType := some "counterfeit_product"
          confidence := if seller.rating < 5/2 then 9/10 else 7/10
          reason := some ("Seller has low rating (" ++ toString seller.rating ++
            "/5) or insufficient reviews (" ++ toString seller.reviewCount ++ ")") }
          :: detectCounterfeitLoop cache rest
      else detectCounterfeitLoop cache rest

/-- Source `detectCounterfeitProducts` (reads the seller reputation cache,
mutates nothing). -/
def detectCounterfeitProducts (st : EngineState) (sellerIds : List String) :
    List FraudCheckResult × EngineState :=
  (detectCounterfeitLoop st.sellerReputationCache sellerIds, st)

/-- The verdict pushed by source `detectPhishingLinks` for a matching URL. -/
def phishingVerdict : FraudCheckResult :=
  { isFraudulent := true
    fraudType := some "phishing_link"
    confidence := 95/100
    reason := some "URL matches known phishing patterns" }

/-- Source `detectPhishingLinks`. -/
def detectPhishingLinks (st : EngineState) (urls : List String) :
    List FraudCheckResult × EngineState :=
  ((urls.filter fun url => trieSearch st.phishingTrie (toLowerList url)).map
      fun _ => phishingVerdict,
    st)

/-- Source `calculateMedian` (despite its comment, the source sorts and
takes the middle; `sort((a, b) => a - b)` is the ascending numeric sort,
and out-of-range indexing never occurs at the call site since the history
has at least 3 entries). -/
def calculateMedian (numbers : List ℚ) : ℚ :=
  let sorted := DealMate.StackSmart.stableSortBy (fun a b => decide (a ≤ b)) numbers
  let mid := sorted.length / 2
  if sorted.length % 2 = 0 then (sorted.getD (mid - 1) 0 + sorted.getD mid 0) / 2
  else sorted.getD mid 0

/-- Source `detectPriceManipulation`. -/
def detectPriceManipulation (st : EngineState) (productId : String)
    (currentPrice : ℚ) : FraudCheckResult × EngineState :=
  match alookup st.priceHistoryCache productId with
  | none => ({ isFraudulent := false, confidence := 0 }, st)
  | some history =>
    if history.prices.length < 3 then
      ({ isFraudulent := false, confidence := 0 }, st)
    else
      let prices := history.prices.map (·.price)
      let medianPrice := calculateMedian prices
      let deviation := |currentPrice - medianPrice| / medianPrice
      if 3/10 < deviation then
        ({ isFraudulent := true
           fraudType := some "price_manipulation"
           confidence := mathMin (deviation * 2) (95/100)
           reason := some ("Price deviates " ++ toString (deviation * 100) ++
             "% from historical median of " ++ toString medianPrice) }, st)
      else
        ({ isFraudulent := false, confidence := 0 }, st)

/-- Source `detectSuspiciousUserBehavior`; `Date.now()` is the explicit
`now` argument. -/
def detectSuspiciousUserBehavior (st : EngineState) (userId : String)
    (_action : String) (now : ℤ) : FraudCheckResult × EngineState :=
  let userTimestamps := ((alookup st.userActivityCache userId).getD []) ++ [now]
  let recentTimestamps := userTimestamps.filter fun ts => now - ts < 60000
  let st' := { st with userActivityCache := aset st.userActivityCache userId recentTimestamps }
  let oneSecondAgo := now - 1000
  let rapidActions := (recentTimestamps.filter fun ts => oneSecondAgo < ts).length
  if 10 < rapidActions then
    ({ isFraudulent := true
       fraudType := some "suspicious_behavior"
       confidence := mathMin ((rapidActions : ℚ) / 15) (95/100)
       reason := some ("User performed " ++ toString rapidActions ++ " actions in 1 second") }, st')
  else if 100 < recentTimestamps.length then
    ({ isFraudulent := true
       fraudType := some "bot_behavior"
       confidence := 85/100
       reason := some ("User performed " ++ toString recentTimestamps.length ++
         " actions in the last minute") }, st')
  else
    ({ isFraudulent := false, confidence := 0 }, st')

/-- The extraction loop of source `getTopAnomalies`
(`for i < count while heap non-empty: extractMin`). -/
def extractLoop (cmp : AnomalyEntry → AnomalyEntry → ℚ)
    (heap : List AnomalyEntry) : ℕ → List AnomalyEntry × List AnomalyEntry
  | 0 => ([], heap)
  | n + 1 =>
    if heap.length = 0 then ([], heap)
    else
      match extractMin cmp heap with
      | (some a, h) =>
        let res := extractLoop cmp h n
        (a :: res.1, res.2)
      | (none, _) => ([], heap)

/-- Source `getTopAnomalies`: extract up to `count` entries, then re-insert
each of them (in extraction order) for future use. -/
def getTopAnomalies (st : EngineState) (count : ℕ) :
    List AnomalyEntry × EngineState :=
  let (anomalies, h) := extractLoop anomalyCmp st.anomalyHeap count
  let hAfter := anomalies.foldl (fun acc a => heapInsert anomalyCmp acc a) h
  (anomalies, { st with anomalyHeap := hAfter })

/-- Source `detectFraud`: run the four checks in order, concatenating the
verdicts (the price-manipulation result is appended only when fraudulent).
`if (sellerId)` is a JS truthiness test, so an empty id skips the
counterfeit check. -/
def detectFraud (st : EngineState) (deal : Deal) (sellerId : Option String) :
    List FraudCheckResult × EngineState :=
  let (fakeR, st1) := detectFakeDeals st [deal]
  let (cfR, st2) :=
    match sellerId with
    | some sid => if sid = "" then ([], st1) else detectCounterfeitProducts st1 [sid]
    | none => ([], st1)
  let (phR, st3) := detectPhishingLinks st2 [deal.url]
  let (pmR, st4) := detectPriceManipulation st3 deal.id deal.originalPrice
  (fakeR ++ cfR ++ phR ++ (if pmR.isFraudulent then [pmR] else []), st4)

/-- The phishing patterns registered by the constructor. -/
def phishingPatterns : List String :=
  ["bit.ly/scam", "tinyurl.com/fake", "phishing-site.com", "amazom.com",
   "amaz0n.com", "flipkrt.com", "paypal-secure.fake", "banking-login.phish",
   "free-iphone-winner", "click-here-now.suspicious", "urgent-action-required",
   "verify-account.scam"]

/-- A trie holding exactly a given list of patterns (inserted in order,
starting from the empty trie). -/
def buildTrie (ps : List (List Char)) : TrieNode :=
  ps.foldl TrieNode.insertPat emptyTrieNode

/-- The trie built by the constructor from `phishingPatterns`. -/
def initialTrie : TrieNode :=
  phishingPatterns.foldl (fun t p => t.insertPat p.toList) emptyTrieNode

/-- The mock seller data loaded by the constructor. -/
def initialSellers : List (String × Seller) :=
  [("seller1", ⟨"seller1", "TechStore Pro", 48/10, 1250⟩),
   ("seller2", ⟨"seller2", "FashionHub", 45/10, 890⟩),
   ("seller3", ⟨"seller3", "SuspiciousSeller", 21/10, 12⟩),
   ("seller4", ⟨"seller4", "NewSeller", 32/10, 25⟩),
   ("seller5", ⟨"seller5", "TrustedMart", 49/10, 5420⟩)]

/-- The mock `product1` history loaded by the constructor (`now` is the
`Date.now()` of construction time; only the prices matter to any check). -/
def product1History (now : ℤ) : PriceHistory :=
  ⟨"product1",
    [⟨1000, now - 86400000 * 7⟩, ⟨1050, now - 86400000 * 5⟩,
     ⟨980, now - 86400000 * 3⟩, ⟨1020, now - 86400000⟩]⟩

/-- The mock `product2` history loaded by the constructor (its last entry
is the deliberately manipulated price). -/
def product2History (now : ℤ) : PriceHistory :=
  ⟨"product2",
    [⟨500, now - 86400000 * 10⟩, ⟨520, now - 86400000 * 7⟩,
     ⟨510, now - 86400000 * 3⟩, ⟨1500, now⟩]⟩

/-- The mock price histories loaded by the constructor. -/
def initialPriceHistories (now : ℤ) : List (String × PriceHistory) :=
  [("product1", product1History now), ("product2", product2History now)]

/-- The engine state right after `new FraudDetectionEngine()`. -/
def initialState (now : ℤ) : EngineState :=
  { phishingTrie := initialTrie
    userActivityCache := []
    anomalyHeap := []
    sellerReputationCache := initialSellers
    priceHistoryCache := initialPriceHistories now }

/-- Source `updateSellerReputation`. -/
def updateSellerReputation (st : EngineState) (seller : Seller) : EngineState :=
  { st with sellerReputationCache := aset st.sellerReputationCache seller.id seller }

/-- Source `addPhishingPattern` (lowercases the pattern before insertion). -/
def addPhishingPattern (st : EngineState) (pattern : String) : EngineState :=
  { st with phishingTrie := st.phishingTrie.insertPat (toLowerList pattern) }

/-- Source `updatePriceHistory`. -/
def updatePriceHistory (st : EngineState) (productId : String) (price : ℚ)
    (now : ℤ) : EngineState :=
  let history := (alookup st.priceHistoryCache productId).getD (⟨productId, []⟩ : PriceHistory)
  let history := { history with prices := history.prices ++ [(⟨price, now⟩ : PricePoint)] }
  let thirtyDaysAgo := now - 30 * 86400000
  let history := { history with prices := history.prices.filter fun p => thirtyDaysAgo < p.timestamp }
  { st with priceHistoryCache := aset st.priceHistoryCache productId history }

/-- Source `clearUserActivityCache`. -/
def clearUserActivityCache (st : EngineState) : EngineState :=
  { st with userActivityCache := [] }

/-- The per-category thresholds exactly as the specification words them:
electronics 0.7, fashion 0.9, home 0.8, food 0.6, and 0.85 for any other
category (stated independently of the source's dictionary-with-fallback
lookup, to be compared against `thresholdFor`). -/
def specCategoryThreshold (c : String) : ℚ :=
  if c = "electronics" then 7/10
  else if c = "fashion" then 9/10
  else if c = "home" then 4/5
  else if c = "food" then 3/5
  else 17/20

/-- A concrete electronics deal discounted by 90% (threshold 70%). -/
def fakeElectronicsDeal : Deal :=
  { id := "d1", title := "Impossible deal", originalPrice := 100,
    discountedPrice := 10, category := "electronics", sellerId := "seller1",
    url := "http://ok.example", timestamp := 0 }

/-- The binary-heap shape invariant of the engine's anomaly heap under its
comparator `(a, b) ↦ score b − score a`: every non-root entry's score is at
most its parent's score (so the root carries the maximal score and
`extractMin` — minimal w.r.t. the comparator — returns the highest-scoring
entry). -/
def heapInv (l : List AnomalyEntry) : Prop :=
  ∀ j, j < l.length → 0 < j →
    (hget l j).anomalyScore ≤ (hget l ((j - 1) / 2)).anomalyScore

instance heapInvDecidable (l : List AnomalyEntry) : Decidable (heapInv l) :=
  Nat.decidableBallLT l.length _

/-- A concrete valid three-entry anomaly heap. -/
def heapABC : List AnomalyEntry :=
  [⟨"a", 30⟩, ⟨"b", 10⟩, ⟨"c", 20⟩]

end FraudDetection

end DealMate

/-! ## Theorems -/

namespace DealMate.StackSmart

theorem memoLookup_cons_self (k : CacheKey) (v : StackResult)
    (rest : List (CacheKey × StackResult)) :
    memoLookup ((k, v) :: rest) k = some v := by
  simp [memoLookup]

/-- C1: counterexample evaluation.  On base price 100 with the stackable
deals `dealA60` (fixed 60 off, priority 2) and `dealB10` (fixed 10 off,
priority 1), `optimize` completes without reaching its time budget yet
returns total savings 60, although the compatible pair
`[dealA60, dealB10]` — mutually stackable, well within `maxDeals = 5` —
saves 70.  So `optimize` does not return a combination of maximal total
savings even when the time limit is not exceeded. -/
theorem optimize_misses_better_stack :
    (optimize [] 100 [dealA60, dealB10] noConstraints 10).1.totalSavings = 60 ∧
    (optimize [] 100 [dealA60, dealB10] noConstraints 10).1.warnings = none ∧
    compatibleChain [dealA60, dealB10] = true ∧
    [dealA60, dealB10].length ≤ maxDealsOf noConstraints ∧
    100 - applySeq 100 [dealA60, dealB10] = 70 ∧
    (optimize [] 100 [dealA60, dealB10] noConstraints 10).1.totalSavings
      < 100 - applySeq 100 [dealA60, dealB10] := by
  refine ⟨?_, ?_, ?_, ?_, ?_, ?_⟩ <;>
  · norm_num [optimize, dealA60, dealB10, noConstraints, getCacheKey, memoLookup,
      stableSortBy, insertSorted, sortDeals, sortDealsLE, applyConstraintsFilter,
      maxDealsOf, branchAndBound, bbLoop, bbStep, bbInclude, calculateBound, calcBoundList,
      calculateDealValue, applyDeal, mathMax, mathMin, canStackDeal,
      canStackSameType, generateBreakdown, generateBreakdownFrom,
      dealDisplayName, dealTypeStr, findAlternatives, altLoop, getDealComboKey,
      compatibleChain, compatibleChainFrom, applySeq, timeLimitWarning]
    repeat (first | (simp; norm_num) | simp | norm_num)

/-- C2: counterexample evaluation for the safe-pruning claim.  In the run
of `branchAndBound` on base price 100 with deals `[dealA60, dealB10]`
(no timeout), after including `dealA60` the search reaches the node at
index 1 with partial combination `[dealA60]`, price 40 and best-so-far
savings 60; that node's bound `calculateBound 40 [dealA60, dealB10] 1 = 10`
is not greater than 60, so the node is discarded — yet its extension by
`dealB10` (stackable with `dealA60`) reaches total savings 70 > 60, as the
final suboptimal answer 60 confirms.  The bound compares only the savings
still obtainable from the node, forgetting the savings already achieved,
so the prune is unsafe. -/
theorem branchAndBound_unsafe_prune :
    calculateBound 40 [dealA60, dealB10] 1 = 10 ∧
    ((10 : ℚ) ≤ 60) ∧
    (branchAndBound 100 [dealA60, dealB10] 5 10).totalSavings = 60 ∧
    (branchAndBound 100 [dealA60, dealB10] 5 10).warnings = none ∧
    canStackDeal dealB10 [dealA60] = true ∧
    applyDeal 100 dealA60 100 = 40 ∧
    100 - applySeq 100 [dealA60, dealB10] = 70 ∧
    (branchAndBound 100 [dealA60, dealB10] 5 10).totalSavings
      < 100 - applySeq 100 [dealA60, dealB10] := by
  refine ⟨?_, ?_, ?_, ?_, ?_, ?_, ?_, ?_⟩ <;>
  · norm_num [dealA60, dealB10, branchAndBound, bbLoop, bbStep, bbInclude, calculateBound,
      calcBoundList, calculateDealValue, applyDeal, mathMax, mathMin,
      canStackDeal, canStackSameType, generateBreakdown, generateBreakdownFrom,
      dealDisplayName, dealTypeStr, applySeq, timeLimitWarning]
    repeat (first | (simp; norm_num) | simp | norm_num)

/-- C4: `optimize` is memoized on the key built from the base price, the
sorted deal ids and the constraints: re-running `optimize` with the same
base price, deal list and constraints (any time budget) returns exactly
the result of the first call, served from the memo cache. -/
theorem optimize_memoized (cache : List (CacheKey × StackResult)) (basePrice : ℚ)
    (deals : List Deal) (constraints : OptimizationConstraints) (fuel₁ fuel₂ : ℕ) :
    (optimize (optimize cache basePrice deals constraints fuel₁).2
        basePrice deals constraints fuel₂).1
      = (optimize cache basePrice deals constraints fuel₁).1 := by
  unfold optimize
  cases h : memoLookup cache (getCacheKey basePrice deals constraints) with
  | some r => simp [h]
  | none => simp [h, memoLookup_cons_self]

end DealMate.StackSmart

namespace DealMate.FraudDetection

theorem thresholdFor_eq_spec (c : String) : thresholdFor c = specCategoryThreshold c := by
  by_cases h1 : c = "electronics"
  · subst h1
    norm_num [thresholdFor, alookup, categoryThresholds, specCategoryThreshold]
    repeat (first | (simp; norm_num) | simp | norm_num)
  · by_cases h2 : c = "fashion"
    · subst h2
      norm_num [thresholdFor, alookup, categoryThresholds, specCategoryThreshold]
      repeat (first | (simp; norm_num) | simp | norm_num)
    · by_cases h3 : c = "home"
      · subst h3
        norm_num [thresholdFor, alookup, categoryThresholds, specCategoryThreshold]
        repeat (first | (simp; norm_num) | simp | norm_num)
      · by_cases h4 : c = "food"
        · subst h4
          norm_num [thresholdFor, alookup, categoryThresholds, specCategoryThreshold]
          repeat (first | (simp; norm_num) | simp | norm_num)
        · simp only [thresholdFor, alookup, categoryThresholds, specCategoryThreshold,
            if_neg (Ne.symm h1), if_neg (Ne.symm h2), if_neg (Ne.symm h3), if_neg (Ne.symm h4),
            if_neg h1, if_neg h2, if_neg h3, if_neg h4]
          by_cases h5 : ("default" : String) = c
          · rw [if_pos h5]
            norm_num
          · rw [if_neg h5]

theorem heapifyUp_zero (cmp : AnomalyEntry → AnomalyEntry → ℚ)
    (l : List AnomalyEntry) : heapifyUp cmp l 0 = l := by
  rw [heapifyUp]
  simp

/-- C3: counterexample.  `getTopAnomalies 1` returns the empty list on a
freshly constructed engine, but returns the recorded anomaly when a
`detectFakeDeals` call (inserting into the anomaly heap) happened first:
the result of an engine call depends on state carried between calls, so
the engines are not stateless between calls. -/
theorem getTopAnomalies_depends_on_prior_calls :
    (getTopAnomalies (initialState 0) 1).1 = [] ∧
    (getTopAnomalies ((detectFakeDeals (initialState 0) [fakeElectronicsDeal]).2) 1).1
      = [⟨"d1", 20⟩] ∧
    ([] : List AnomalyEntry) ≠ [⟨"d1", 20⟩] := by
  have hheap : (detectFakeDealsLoop (initialState 0).anomalyHeap [fakeElectronicsDeal]).2
      = [⟨"d1", 20⟩] := by
    norm_num [detectFakeDealsLoop, initialState, fakeElectronicsDeal, thresholdFor,
      alookup, categoryThresholds, heapInsert, heapifyUp_zero]
    repeat (first | (simp [heapifyUp_zero]; norm_num) | simp [heapifyUp_zero] | norm_num)
  have hstate : (detectFakeDeals (initialState 0) [fakeElectronicsDeal]).2
      = { initialState 0 with anomalyHeap := [⟨"d1", 20⟩] } := by
    simp only [detectFakeDeals]
    rw [hheap]
  refine ⟨?_, ?_, ?_⟩
  · rfl
  · rw [hstate]
    rfl
  · simp

theorem detectFakeDealsLoop_fst_heap_free (ds : List Deal) :
    ∀ h h', (detectFakeDealsLoop h ds).1 = (detectFakeDealsLoop h' ds).1 := by
  induction ds with
  | nil => intro h h'; rfl
  | cons d rest ih =>
    intro h h'
    simp only [detectFakeDealsLoop]
    split
    · dsimp only
      exact congrArg (List.cons _) (ih _ _)
    · exact ih _ _

/-- C3 (amended): the engine operations are deterministic functions of
their arguments and the explicitly threaded engine state, but state is
carried between calls; `detectPhishingLinks`, `detectCounterfeitProducts`
and `detectPriceManipulation` leave the state unchanged, the verdict list
of `detectFakeDeals` does not depend on the incoming state, and the list
returned by `getTopAnomalies` depends on the state only through the
anomaly heap. -/
theorem engine_ops_state_dependence :
    (∀ st urls, (detectPhishingLinks st urls).2 = st) ∧
    (∀ st ids, (detectCounterfeitProducts st ids).2 = st) ∧
    (∀ st pid price, (detectPriceManipulation st pid price).2 = st) ∧
    (∀ st st' ds, (detectFakeDeals st ds).1 = (detectFakeDeals st' ds).1) ∧
    (∀ st count, (getTopAnomalies st count).1
      = (extractLoop anomalyCmp st.anomalyHeap count).1) := by
  refine ⟨fun st urls => rfl, fun st ids => rfl, ?_, ?_, fun st count => rfl⟩
  · intro st pid price
    unfold detectPriceManipulation
    split
    · rfl
    · split
      · rfl
      · dsimp only
        split <;> rfl
  · intro st st' ds
    simp only [detectFakeDeals]
    exact detectFakeDealsLoop_fst_heap_free ds _ _

/-- C7: for every deal with positive original price, `detectFakeDeals`
returns a fake-deal verdict iff the discount percentage
`(original - discounted) / original * 100` strictly exceeds 100 times the
per-category threshold (electronics 0.7, fashion 0.9, home 0.8, food 0.6,
any other category 0.85), and the verdict then carries fraud type
`fake_deal` and confidence `min((dp - tp) / 20, 0.95)`. -/
theorem detectFakeDeals_iff_threshold (st : EngineState) (d : Deal)
    (hpos : 0 < d.originalPrice) :
    ((detectFakeDeals st [d]).1 ≠ [] ↔
      specCategoryThreshold d.category * 100 <
        (d.originalPrice - d.discountedPrice) / d.originalPrice * 100) ∧
    (specCategoryThreshold d.category * 100 <
        (d.originalPrice - d.discountedPrice) / d.originalPrice * 100 →
      (detectFakeDeals st [d]).1 =
        [{ isFraudulent := true
           fraudType := some "fake_deal"
           confidence := mathMin
             (((d.originalPrice - d.discountedPrice) / d.originalPrice * 100 -
               specCategoryThreshold d.category * 100) / 20) (95/100)
           reason := some ("Discount of " ++
             toString ((d.originalPrice - d.discountedPrice) / d.originalPrice * 100) ++
             "% exceeds category threshold of " ++
             toString (specCategoryThreshold d.category * 100) ++ "%") }]) := by
  have hthr := thresholdFor_eq_spec d.category
  by_cases hc : specCategoryThreshold d.category * 100 <
      (d.originalPrice - d.discountedPrice) / d.originalPrice * 100
  · have hres : (detectFakeDeals st [d]).1 =
        [{ isFraudulent := true
           fraudType := some "fake_deal"
           confidence := mathMin
             (((d.originalPrice - d.discountedPrice) / d.originalPrice * 100 -
               specCategoryThreshold d.category * 100) / 20) (95/100)
           reason := some ("Discount of " ++
             toString ((d.originalPrice - d.discountedPrice) / d.originalPrice * 100) ++
             "% exceeds category threshold of " ++
             toString (specCategoryThreshold d.category * 100) ++ "%") }] := by
      simp only [detectFakeDeals, detectFakeDealsLoop]
      rw [hthr, if_pos hc]
    refine ⟨⟨fun _ => hc, fun _ => ?_⟩, fun _ => hres⟩
    rw [hres]
    simp
  · have hres : (detectFakeDeals st [d]).1 = [] := by
      simp only [detectFakeDeals, detectFakeDealsLoop]
      rw [hthr, if_neg hc]
    exact ⟨⟨fun hne => absurd hres hne, fun hlt => absurd hlt hc⟩,
      fun hlt => absurd hlt hc⟩

/-- C7 witness: the 90%-off electronics deal is flagged. -/
theorem detectFakeDeals_iff_threshold_witness :
    0 < fakeElectronicsDeal.originalPrice ∧
    (detectFakeDeals (initialState 0) [fakeElectronicsDeal]).1 ≠ [] := by
  refine ⟨by norm_num [fakeElectronicsDeal], ?_⟩
  exact (detectFakeDeals_iff_threshold (initialState 0) fakeElectronicsDeal
    (by norm_num [fakeElectronicsDeal])).1.mpr
    (by norm_num [fakeElectronicsDeal, specCategoryThreshold])

/-- C8: `detectCounterfeitProducts` emits a counterfeit verdict for a
seller id iff the seller is in the reputation cache with rating below 3.5
or review count below 50; ids absent from the cache are skipped, and the
verdict's confidence is 0.9 when the rating is below 2.5 and 0.7
otherwise. -/
theorem detectCounterfeit_iff (st : EngineState) (sid : String) :
    ((detectCounterfeitProducts st [sid]).1 ≠ [] ↔
      ∃ s, alookup st.sellerReputationCache sid = some s ∧
        (s.rating < 7/2 ∨ s.reviewCount < 50)) ∧
    (alookup st.sellerReputationCache sid = none →
      (detectCounterfeitProducts st [sid]).1 = []) ∧
    (∀ s, alookup st.sellerReputationCache sid = some s →
      ((s.rating < 7/2 ∨ s.reviewCount < 50 →
        (detectCounterfeitProducts st [sid]).1 =
          [{ isFraudulent := true
             fraudType := some "counterfeit_product"
             confidence := if s.rating < 5/2 then 9/10 else 7/10
             reason := some ("Seller has low rating (" ++ toString s.rating ++
               "/5) or insufficient reviews (" ++ toString s.reviewCount ++ ")") }]) ∧
       (¬(s.rating < 7/2 ∨ s.reviewCount < 50) →
        (detectCounterfeitProducts st [sid]).1 = []))) := by
  cases hlk : alookup st.sellerReputationCache sid with
  | none =>
    have hres : (detectCounterfeitProducts st [sid]).1 = [] := by
      simp only [detectCounterfeitProducts, detectCounterfeitLoop, hlk]
    refine ⟨⟨fun hne => absurd hres hne, ?_⟩, fun _ => hres, fun s hs => ?_⟩
    · rintro ⟨s, hs, -⟩
      exact Option.noConfusion hs
    · exact Option.noConfusion hs
  | some seller =>
    by_cases hcond : seller.rating < 7/2 ∨ seller.reviewCount < 50
    · have hres : (detectCounterfeitProducts st [sid]).1 =
          [{ isFraudulent := true
             fraudType := some "counterfeit_product"
             confidence := if seller.rating < 5/2 then 9/10 else 7/10
             reason := some ("Seller has low rating (" ++ toString seller.rating ++
               "/5) or insufficient reviews (" ++ toString seller.reviewCount ++ ")") }] := by
        simp only [detectCounterfeitProducts, detectCounterfeitLoop, hlk]
        rw [if_pos hcond]
      refine ⟨⟨fun _ => ⟨seller, rfl, hcond⟩, fun _ => ?_⟩,
        fun hnone => Option.noConfusion hnone,
        fun s hs => ?_⟩
      · rw [hres]
        simp
      · obtain rfl : seller = s := Option.some.inj hs
        exact ⟨fun _ => hres, fun hn => absurd hcond hn⟩
    · have hres : (detectCounterfeitProducts st [sid]).1 = [] := by
        simp only [detectCounterfeitProducts, detectCounterfeitLoop, hlk]
        rw [if_neg hcond]
      refine ⟨⟨fun hne => absurd hres hne, ?_⟩,
        fun hnone => Option.noConfusion hnone,
        fun s hs => ?_⟩
      · rintro ⟨s, hs, hc⟩
        obtain rfl : seller = s := Option.some.inj hs
        exact absurd hc hcond
      · obtain rfl : seller = s := Option.some.inj hs
        exact ⟨fun hc => absurd hc hcond, fun _ => hres⟩

/-- C8 witness: the low-rated `seller3` of the mock data is flagged. -/
theorem detectCounterfeit_iff_witness :
    (detectCounterfeitProducts (initialState 0) ["seller3"]).1 ≠ [] := by
  refine (detectCounterfeit_iff (initialState 0) "seller3").1.mpr
    ⟨⟨"seller3", "SuspiciousSeller", 21/10, 12⟩, ?_, Or.inl (by norm_num)⟩
  simp [initialState, initialSellers, alookup]

end DealMate.FraudDetection

namespace DealMate.FraudDetection

/-- C9: `detectPriceManipulation` returns a non-fraudulent result with
confidence 0 when the product has no cached price history or fewer than 3
recorded prices; otherwise (for a positive historical median) it returns a
`price_manipulation` verdict iff `|current − median| / median` strictly
exceeds 0.3, in which case the confidence is `min(deviation · 2, 0.95)`. -/
theorem detectPriceManipulation_spec (st : EngineState) (pid : String) (current : ℚ) :
    (alookup st.priceHistoryCache pid = none →
      (detectPriceManipulation st pid current).1 =
        { isFraudulent := false, confidence := 0 }) ∧
    (∀ h, alookup st.priceHistoryCache pid = some h → h.prices.length < 3 →
      (detectPriceManipulation st pid current).1 =
        { isFraudulent := false, confidence := 0 }) ∧
    (∀ h, alookup st.priceHistoryCache pid = some h → 3 ≤ h.prices.length →
      0 < calculateMedian (h.prices.map (·.price)) →
      (((detectPriceManipulation st pid current).1.isFraudulent = true ↔
        3/10 < |current - calculateMedian (h.prices.map (·.price))| /
          calculateMedian (h.prices.map (·.price))) ∧
       (3/10 < |current - calculateMedian (h.prices.map (·.price))| /
          calculateMedian (h.prices.map (·.price)) →
        (detectPriceManipulation st pid current).1 =
          { isFraudulent := true
            fraudType := some "price_manipulation"
            confidence := mathMin ((|current - calculateMedian (h.prices.map (·.price))| /
              calculateMedian (h.prices.map (·.price))) * 2) (95/100)
            reason := some ("Price deviates " ++
              toString ((|current - calculateMedian (h.prices.map (·.price))| /
                calculateMedian (h.prices.map (·.price))) * 100) ++
              "% from historical median of " ++
              toString (calculateMedian (h.prices.map (·.price)))) }) ∧
       (¬(3/10 < |current - calculateMedian (h.prices.map (·.price))| /
          calculateMedian (h.prices.map (·.price))) →
        (detectPriceManipulation st pid current).1 =
          { isFraudulent := false, confidence := 0 }))) := by
  cases hlk : alookup st.priceHistoryCache pid with
  | none =>
    have hres : (detectPriceManipulation st pid current).1 =
        { isFraudulent := false, confidence := 0 } := by
      simp only [detectPriceManipulation, hlk]
    exact ⟨fun _ => hres,
      fun h hsome => Option.noConfusion hsome,
      fun h hsome => Option.noConfusion hsome⟩
  | some hist =>
    by_cases hlen : hist.prices.length < 3
    · have hres : (detectPriceManipulation st pid current).1 =
          { isFraudulent := false, confidence := 0 } := by
        simp only [detectPriceManipulation, hlk]
        rw [if_pos hlen]
      refine ⟨fun hnone => Option.noConfusion hnone,
        fun h hsome _ => hres, fun h hsome h3 _ => ?_⟩
      obtain rfl : hist = h := Option.some.inj hsome
      exact absurd h3 (by omega)
    · by_cases hdev : 3/10 < |current - calculateMedian (hist.prices.map (·.price))| /
          calculateMedian (hist.prices.map (·.price))
      · have hres : (detectPriceManipulation st pid current).1 =
            { isFraudulent := true
              fraudType := some "price_manipulation"
              confidence := mathMin ((|current - calculateMedian (hist.prices.map (·.price))| /
                calculateMedian (hist.prices.map (·.price))) * 2) (95/100)
              reason := some ("Price deviates " ++
                toString ((|current - calculateMedian (hist.prices.map (·.price))| /
                  calculateMedian (hist.prices.map (·.price))) * 100) ++
                "% from historical median of " ++
                toString (calculateMedian (hist.prices.map (·.price)))) } := by
          simp only [detectPriceManipulation, hlk]
          rw [if_neg hlen, if_pos hdev]
        refine ⟨fun hnone => Option.noConfusion hnone,
          fun h hsome hl => ?_, fun h hsome h3 hmed => ?_⟩
        · obtain rfl : hist = h := Option.some.inj hsome
          exact absurd hl hlen
        · obtain rfl : hist = h := Option.some.inj hsome
          exact ⟨⟨fun _ => hdev, fun _ => by rw [hres]⟩,
            fun _ => hres, fun hn => absurd hdev hn⟩
      · have hres : (detectPriceManipulation st pid current).1 =
            { isFraudulent := false, confidence := 0 } := by
          simp only [detectPriceManipulation, hlk]
          rw [if_neg hlen, if_neg hdev]
        refine ⟨fun hnone => Option.noConfusion hnone,
          fun h hsome hl => ?_, fun h hsome h3 hmed => ?_⟩
        · obtain rfl : hist = h := Option.some.inj hsome
          exact absurd hl hlen
        · obtain rfl : hist = h := Option.some.inj hsome
          refine ⟨⟨fun hf => ?_, fun hd => absurd hd hdev⟩,
            fun hd => absurd hd hdev, fun _ => hres⟩
          rw [hres] at hf
          exact absurd hf (by simp)
      
/-- C9 witness: `product2` of the mock data, asked at the manipulated
price 1500, is flagged. -/
theorem detectPriceManipulation_spec_witness :
    (detectPriceManipulation (initialState 0) "product2" 1500).1.isFraudulent = true := by
  have hlk : alookup (initialState 0).priceHistoryCache "product2"
      = some (product2History 0) := by
    simp [initialState, initialPriceHistories, alookup]
  have hmed : calculateMedian ((product2History 0).prices.map (·.price)) = 515 := by
    norm_num [product2History, calculateMedian, DealMate.StackSmart.stableSortBy,
      DealMate.StackSmart.insertSorted]
    repeat (first | (simp; norm_num) | simp | norm_num)
  refine ((detectPriceManipulation_spec (initialState 0) "product2" 1500).2.2
    (product2History 0) hlk ?_ ?_).1.mpr ?_
  · norm_num [product2History]
  · rw [hmed]
    norm_num
  · rw [hmed]
    norm_num

end DealMate.FraudDetection

namespace DealMate.StackSmart

theorem le_mathMax_left (a b : ℚ) : a ≤ mathMax a b := by
  unfold mathMax
  split
  · assumption
  · exact le_refl a

theorem applyDeal_nonneg (p : ℚ) (d : Deal) (bp : ℚ) (hp : 0 ≤ p) :
    0 ≤ applyDeal p d bp := by
  unfold applyDeal
  dsimp only
  split
  · exact hp
  · exact le_mathMax_left 0 _

set_option maxHeartbeats 1600000 in
theorem bbInclude_stack_nonneg (bp : ℚ) (deals : List Deal) (maxDeals : ℕ)
    (node : BBNode) (rest : List BBNode) (best : BBResult)
    (hnode : 0 ≤ node.currentPrice)
    (hrest : ∀ m ∈ rest, 0 ≤ m.currentPrice) :
    ∀ m ∈ (bbInclude bp deals maxDeals node rest best).1, 0 ≤ m.currentPrice := by
  intro m hm
  unfold bbInclude at hm
  repeat first | split at hm | dsimp only at hm
  all_goals try rcases List.mem_cons.mp hm with rfl | hm
  all_goals try dsimp only
  all_goals
    first
      | exact applyDeal_nonneg _ _ _ hnode
      | exact hrest _ hm

theorem bbStep_stack_nonneg (bp : ℚ) (deals : List Deal) (maxDeals : ℕ)
    (node : BBNode) (rest : List BBNode) (best : BBResult)
    (hnode : 0 ≤ node.currentPrice)
    (hrest : ∀ m ∈ rest, 0 ≤ m.currentPrice) :
    ∀ m ∈ (bbStep bp deals maxDeals node rest best).1, 0 ≤ m.currentPrice := by
  intro m hm
  unfold bbStep at hm
  dsimp only at hm
  split at hm
  · rcases List.mem_cons.mp hm with rfl | hm2
    · exact hnode
    · exact bbInclude_stack_nonneg bp deals maxDeals node rest best hnode hrest _ hm2
  · exact bbInclude_stack_nonneg bp deals maxDeals node rest best hnode hrest _ hm

theorem bbStep_best_invariant (bp : ℚ) (deals : List Deal) (maxDeals : ℕ)
    (node : BBNode) (rest : List BBNode) (best : BBResult)
    (hnode : 0 ≤ node.currentPrice)
    (h1 : 0 ≤ best.totalSavings) (h2 : best.finalPrice = bp - best.totalSavings)
    (h3 : 0 ≤ best.finalPrice) :
    0 ≤ (bbStep bp deals maxDeals node rest best).2.totalSavings ∧
    (bbStep bp deals maxDeals node rest best).2.finalPrice
      = bp - (bbStep bp deals maxDeals node rest best).2.totalSavings ∧
    0 ≤ (bbStep bp deals maxDeals node rest best).2.finalPrice := by
  have hsnd : (bbStep bp deals maxDeals node rest best).2
      = (bbInclude bp deals maxDeals node rest best).2 := rfl
  rw [hsnd]
  unfold bbInclude
  dsimp only
  split
  · split
    · split
      · dsimp only
        split
        · rename_i hupd
          dsimp only
          refine ⟨by linarith, by ring, applyDeal_nonneg _ _ _ hnode⟩
        · exact ⟨h1, h2, h3⟩
      · exact ⟨h1, h2, h3⟩
    · exact ⟨h1, h2, h3⟩
  · exact ⟨h1, h2, h3⟩

theorem bbLoop_invariant (bp : ℚ) (deals : List Deal) (maxDeals : ℕ) (fuel : ℕ) :
    ∀ (stack : List BBNode) (best : BBResult),
      (∀ m ∈ stack, 0 ≤ m.currentPrice) →
      0 ≤ best.totalSavings → best.finalPrice = bp - best.totalSavings →
      0 ≤ best.finalPrice →
      (0 ≤ (bbLoop bp deals maxDeals fuel stack best).1.totalSavings ∧
       (bbLoop bp deals maxDeals fuel stack best).1.finalPrice
         = bp - (bbLoop bp deals maxDeals fuel stack best).1.totalSavings ∧
       0 ≤ (bbLoop bp deals maxDeals fuel stack best).1.finalPrice) := by
  induction fuel with
  | zero => intro stack best _ h1 h2 h3; exact ⟨h1, h2, h3⟩
  | succ n ih =>
    intro stack best hstack h1 h2 h3
    cases stack with
    | nil => exact ⟨h1, h2, h3⟩
    | cons node rest =>
      have hnode : 0 ≤ node.currentPrice := hstack node (List.mem_cons_self node rest)
      have hrest : ∀ m ∈ rest, 0 ≤ m.currentPrice :=
        fun m hm => hstack m (List.mem_cons_of_mem _ hm)
      simp only [bbLoop]
      split
      · exact ih rest best hrest h1 h2 h3
      · have hs := bbStep_best_invariant bp deals maxDeals node rest best hnode h1 h2 h3
        exact ih _ _ (bbStep_stack_nonneg bp deals maxDeals node rest best hnode hrest)
          hs.1 hs.2.1 hs.2.2

theorem branchAndBound_invariant (bp : ℚ) (deals : List Deal) (maxDeals : ℕ)
    (fuel : ℕ) (hbp : 0 ≤ bp) :
    0 ≤ (branchAndBound bp deals maxDeals fuel).totalSavings ∧
    (branchAndBound bp deals maxDeals fuel).finalPrice
      = bp - (branchAndBound bp deals maxDeals fuel).totalSavings ∧
    0 ≤ (branchAndBound bp deals maxDeals fuel).finalPrice := by
  have h := bbLoop_invariant bp deals maxDeals fuel
    [{ index := 0, currentDeals := [], currentPrice := bp,
       bound := calculateBound bp deals 0 }]
    { deals := [], totalSavings := 0, finalPrice := bp, breakdown := [] }
    (by intro m hm
        rcases List.mem_cons.mp hm with rfl | hm'
        · exact hbp
        · exact absurd hm' (List.not_mem_nil m))
    (le_refl 0) (by ring) hbp
  unfold branchAndBound
  dsimp only
  split
  · exact h
  · exact h

theorem memoLookup_mem {cache : List (CacheKey × StackResult)} {k : CacheKey}
    {v : StackResult} (h : memoLookup cache k = some v) : (k, v) ∈ cache := by
  induction cache with
  | nil => exact Option.noConfusion h
  | cons e rest ih =>
    obtain ⟨k', v'⟩ := e
    simp only [memoLookup] at h
    split at h
    case isTrue heq =>
      obtain rfl : v' = v := Option.some.inj h
      subst heq
      exact List.mem_cons_self _ _
    case isFalse =>
      exact List.mem_cons_of_mem _ (ih h)

/-- C10: for a non-negative base price, non-negative deal values and a
memo cache whose entries satisfy the price invariant, the `StackResult`
returned by `optimize` satisfies `0 ≤ finalPrice ≤ basePrice` and
`totalSavings = basePrice - finalPrice`: applying a stack never raises the
price and never drives it below zero. -/
theorem optimize_price_invariant (cache : List (CacheKey × StackResult))
    (basePrice : ℚ) (deals : List Deal) (constraints : OptimizationConstraints)
    (fuel : ℕ) (hbp : 0 ≤ basePrice)
    (hval : ∀ d ∈ deals, 0 ≤ d.value)
    (hcache : ∀ e ∈ cache, 0 ≤ e.2.totalSavings ∧
      e.2.finalPrice = e.1.basePrice - e.2.totalSavings ∧ 0 ≤ e.2.finalPrice) :
    0 ≤ (optimize cache basePrice deals constraints fuel).1.finalPrice ∧
    (optimize cache basePrice deals constraints fuel).1.finalPrice ≤ basePrice ∧
    (optimize cache basePrice deals constraints fuel).1.totalSavings
      = basePrice - (optimize cache basePrice deals constraints fuel).1.finalPrice := by
  unfold optimize
  dsimp only
  cases h : memoLookup cache (getCacheKey basePrice deals constraints) with
  | some r =>
    have hmem := memoLookup_mem h
    have hr := hcache _ hmem
    dsimp only at hr
    have hkey : (getCacheKey basePrice deals constraints).basePrice = basePrice := rfl
    rw [hkey] at hr
    simp only [h]
    try dsimp only
    exact ⟨hr.2.2, by linarith [hr.1, hr.2.1], by linarith [hr.2.1]⟩
  | none =>
    have hc := branchAndBound_invariant basePrice
      (applyConstraintsFilter (sortDeals deals basePrice) constraints)
      (maxDealsOf constraints) fuel hbp
    simp only [h]
    try dsimp only
    exact ⟨hc.2.2, by linarith [hc.1, hc.2.1], by linarith [hc.2.1]⟩

/-- C10 witness: the invariant evaluated on a fresh optimizer at base
price 100 with the two concrete deals. -/
theorem optimize_price_invariant_witness :
    0 ≤ (optimize [] 100 [dealA60, dealB10] noConstraints 10).1.finalPrice ∧
    (optimize [] 100 [dealA60, dealB10] noConstraints 10).1.finalPrice ≤ 100 ∧
    (optimize [] 100 [dealA60, dealB10] noConstraints 10).1.totalSavings
      = 100 - (optimize [] 100 [dealA60, dealB10] noConstraints 10).1.finalPrice :=
  optimize_price_invariant [] 100 [dealA60, dealB10] noConstraints 10
    (by norm_num)
    (by intro d hd
        rcases List.mem_cons.mp hd with rfl | hd'
        · norm_num [dealA60]
        · rcases List.mem_cons.mp hd' with rfl | hd''
          · norm_num [dealB10]
          · exact absurd hd'' (List.not_mem_nil d))
    (by intro e he; exact absurd he (List.not_mem_nil e))

end DealMate.StackSmart

namespace DealMate.FraudDetection

theorem findChild_setChild (cs : List (Char × TrieNode)) (ch : Char) (n : TrieNode)
    (c : Char) :
    findChild (setChild cs ch n) c = if ch = c then some n else findChild cs c := by
  induction cs with
  | nil =>
    simp only [setChild, findChild]
  | cons hd rest ih =>
    obtain ⟨k, m⟩ := hd
    by_cases hk : k = ch
    · subst hk
      simp only [setChild, if_pos rfl, findChild]
      by_cases hc : k = c
      · subst hc
        simp
      · simp [hc, fun h : k = c => hc h]
    · simp only [setChild, if_neg hk, findChild]
      by_cases hc : k = c
      · subst hc
        have : ¬ ch = k := fun h => hk h.symm
        simp [this]
      · simp [hc, ih]

theorem acceptsB_emptyTrieNode (q : List Char) : acceptsB emptyTrieNode q = false := by
  cases q with
  | nil => rfl
  | cons c rest => rfl

theorem acceptsB_insertPat (q : List Char) :
    ∀ (t : TrieNode) (p : List Char),
      acceptsB (t.insertPat p) q = (acceptsB t q || decide (q = p)) := by
  induction q with
  | nil =>
    intro t p
    obtain ⟨cs, e⟩ := t
    cases p with
    | nil => simp [TrieNode.insertPat, acceptsB, TrieNode.isEndOfPattern]
    | cons c p' => simp [TrieNode.insertPat, acceptsB, TrieNode.isEndOfPattern]
  | cons d q' ih =>
    intro t p
    obtain ⟨cs, e⟩ := t
    cases p with
    | nil =>
      simp [TrieNode.insertPat, acceptsB, TrieNode.children]
    | cons c p' =>
      simp only [TrieNode.insertPat, acceptsB, TrieNode.children]
      rw [findChild_setChild]
      by_cases hcd : c = d
      · subst hcd
        rw [if_pos rfl]
        cases hfc : findChild cs c with
        | some n =>
          simp only [hfc, ih]
          simp
        | none =>
          simp only [hfc, ih, acceptsB_emptyTrieNode]
          simp
      · rw [if_neg hcd]
        have : ¬ (d :: q' = c :: p') := by
          intro h
          exact hcd (List.head_eq_of_cons_eq h).symm
        simp [this]

theorem acceptsB_buildTrie_aux (ps : List (List Char)) :
    ∀ (t : TrieNode) (q : List Char),
      acceptsB (ps.foldl TrieNode.insertPat t) q = (acceptsB t q || decide (q ∈ ps)) := by
  induction ps with
  | nil => intro t q; simp [List.foldl]
  | cons p ps' ih =>
    intro t q
    simp only [List.foldl, ih, acceptsB_insertPat]
    by_cases hq : q = p <;> simp [hq, Bool.or_assoc]

theorem acceptsB_buildTrie (ps : List (List Char)) (q : List Char) :
    acceptsB (buildTrie ps) q = decide (q ∈ ps) := by
  unfold buildTrie
  rw [acceptsB_buildTrie_aux, acceptsB_emptyTrieNode]
  simp

theorem matchFrom_iff (s : List Char) :
    ∀ t : TrieNode, matchFrom t s = true ↔
      ∃ p, p ≠ [] ∧ p <+: s ∧ acceptsB t p = true := by
  induction s with
  | nil =>
    intro t
    simp only [matchFrom]
    constructor
    · intro h
      exact absurd h (by simp)
    · rintro ⟨p, hne, hpre, -⟩
      obtain ⟨u, hu⟩ := hpre
      cases p with
      | nil => exact absurd rfl hne
      | cons a b => exact List.noConfusion hu
  | cons c s' ih =>
    intro t
    simp only [matchFrom]
    cases hfc : findChild t.children c with
    | none =>
      simp only []
      constructor
      · intro h
        exact absurd h (by simp)
      · rintro ⟨p, hne, hpre, hacc⟩
        cases p with
        | nil => exact absurd rfl hne
        | cons a b =>
          obtain ⟨u, hu⟩ := hpre
          have ha : a = c := (List.head_eq_of_cons_eq hu)
          subst ha
          simp only [acceptsB, hfc] at hacc
          exact absurd hacc (by simp)
    | some n =>
      by_cases hend : n.isEndOfPattern = true
      · simp only [hend, if_pos rfl]
        constructor
        · intro _
          refine ⟨[c], by simp, ⟨s', rfl⟩, ?_⟩
          simp [acceptsB, hfc, hend]
        · intro _
          rfl
      · have hend' : n.isEndOfPattern = false := by
          cases hb : n.isEndOfPattern
          · rfl
          · exact absurd hb hend
        simp only [hend']
        rw [if_neg (show ¬ (false = true) by simp), ih n]
        constructor
        · rintro ⟨p', hne', hpre', hacc'⟩
          refine ⟨c :: p', by simp, ?_, ?_⟩
          · obtain ⟨u, hu⟩ := hpre'
            exact ⟨u, by simp [hu]⟩
          · simp [acceptsB, hfc, hacc']
        · rintro ⟨p, hne, hpre, hacc⟩
          cases p with
          | nil => exact absurd rfl hne
          | cons a p'' =>
            obtain ⟨u, hu⟩ := hpre
            have ha : a = c := List.head_eq_of_cons_eq hu
            subst ha
            simp only [acceptsB, hfc] at hacc
            cases hp'' : p'' with
            | nil =>
              subst hp''
              simp only [acceptsB] at hacc
              exact absurd hacc (by simp [hend'])
            | cons b p''' =>
              refine ⟨p'', by simp [hp''], ?_, ?_⟩
              · have := List.tail_eq_of_cons_eq hu
                exact ⟨u, this⟩
              · exact hacc

theorem trieSearch_iff (t : TrieNode) (s : List Char) :
    trieSearch t s = true ↔ ∃ p, p ≠ [] ∧ p <:+: s ∧ acceptsB t p = true := by
  induction s with
  | nil =>
    simp only [trieSearch]
    constructor
    · intro h
      exact absurd h (by simp)
    · rintro ⟨p, hne, hinf, -⟩
      obtain ⟨a, b, hab⟩ := hinf
      cases p with
      | nil => exact absurd rfl hne
      | cons x y =>
        rcases a with _ | ⟨a0, a'⟩
        · exact List.noConfusion hab
        · exact List.noConfusion hab
  | cons c s' ih =>
    simp only [trieSearch, Bool.or_eq_true, ih, matchFrom_iff]
    constructor
    · rintro (⟨p, hne, hpre, hacc⟩ | ⟨p, hne, hinf, hacc⟩)
      · obtain ⟨u, hu⟩ := hpre
        exact ⟨p, hne, ⟨[], u, by simpa using hu⟩, hacc⟩
      · obtain ⟨a, b, hab⟩ := hinf
        exact ⟨p, hne, ⟨c :: a, b, by simp [hab]⟩, hacc⟩
    · rintro ⟨p, hne, ⟨a, b, hab⟩, hacc⟩
      rcases a with _ | ⟨a0, a'⟩
      · exact Or.inl ⟨p, hne, ⟨b, by simpa using hab⟩, hacc⟩
      · have ha0 : a0 = c := List.head_eq_of_cons_eq hab
        have hrest : a' ++ p ++ b = s' := List.tail_eq_of_cons_eq hab
        exact Or.inr ⟨p, hne, ⟨a', b, hrest⟩, hacc⟩

theorem initialTrie_eq_buildTrie :
    initialTrie = buildTrie (phishingPatterns.map (·.toList)) := by
  unfold initialTrie buildTrie
  rw [List.foldl_map]

end DealMate.FraudDetection

namespace DealMate.FraudDetection

/-- C6: `detectPhishingLinks` returns the phishing verdict (fraud type
`phishing_link`, confidence 0.95) exactly for those URLs whose lowercased
form contains one of the registered phishing patterns as a contiguous
substring; and in general, for any nonempty patterns inserted into a trie,
`Trie.search` succeeds on a text iff some inserted pattern is a substring
of it. -/
theorem detectPhishingLinks_trie_spec (now : ℤ) (urls : List String) :
    ((detectPhishingLinks (initialState now) urls).1 =
      (urls.filter fun u =>
        decide (∃ p ∈ phishingPatterns, p.toList <:+: toLowerList u)).map
        fun _ => phishingVerdict) ∧
    (∀ ps : List (List Char), (∀ p ∈ ps, p ≠ []) →
      ∀ s, (trieSearch (buildTrie ps) s = true ↔ ∃ p ∈ ps, p <:+: s)) := by
  have hgen : ∀ ps : List (List Char), (∀ p ∈ ps, p ≠ []) →
      ∀ s, (trieSearch (buildTrie ps) s = true ↔ ∃ p ∈ ps, p <:+: s) := by
    intro ps hne s
    rw [trieSearch_iff]
    constructor
    · rintro ⟨p, pne, pinf, pacc⟩
      rw [acceptsB_buildTrie] at pacc
      exact ⟨p, of_decide_eq_true pacc, pinf⟩
    · rintro ⟨p, hp, pinf⟩
      exact ⟨p, hne p hp, pinf, by rw [acceptsB_buildTrie]; exact decide_eq_true hp⟩
  refine ⟨?_, hgen⟩
  have hpats : ∀ p ∈ phishingPatterns.map (·.toList), p ≠ ([] : List Char) := by decide
  have hpred : ∀ u : String,
      trieSearch (initialState now).phishingTrie (toLowerList u)
        = decide (∃ p ∈ phishingPatterns, p.toList <:+: toLowerList u) := by
    intro u
    have htrie : (initialState now).phishingTrie
        = buildTrie (phishingPatterns.map (·.toList)) := initialTrie_eq_buildTrie
    rw [htrie]
    by_cases hex : ∃ p ∈ phishingPatterns, p.toList <:+: toLowerList u
    · rw [decide_eq_true hex]
      rw [hgen _ hpats (toLowerList u)]
      obtain ⟨p, hp, hinf⟩ := hex
      exact ⟨p.toList, List.mem_map_of_mem _ hp, hinf⟩
    · rw [decide_eq_false hex]
      rcases hb : trieSearch (buildTrie (phishingPatterns.map (·.toList))) (toLowerList u) with _ | _
      · exact hb
      · exfalso
        obtain ⟨q, hq, hinf⟩ := (hgen _ hpats (toLowerList u)).mp hb
        obtain ⟨p, hp, rfl⟩ := List.mem_map.mp hq
        exact hex ⟨p, hp, hinf⟩
  simp only [detectPhishingLinks]
  rw [List.filter_congr (fun a _ => hpred a)]

/-- C6 witness: the general trie equivalence applied to the single pattern
`abc` and the text `xabcy`. -/
theorem detectPhishingLinks_trie_spec_witness :
    (∀ p ∈ ["abc".toList], p ≠ ([] : List Char)) ∧
    (trieSearch (buildTrie ["abc".toList]) "xabcy".toList = true ↔
      ∃ p ∈ ["abc".toList], p <:+: "xabcy".toList) :=
  ⟨by decide,
    (detectPhishingLinks_trie_spec 0 []).2 ["abc".toList] (by decide) "xabcy".toList⟩

end DealMate.FraudDetection

namespace DealMate.FraudDetection

theorem hswap_length (l : List AnomalyEntry) (i j : ℕ) :
    (hswap l i j).length = l.length := by
  simp [hswap]

theorem hget_set_self (l : List AnomalyEntry) (i : ℕ) (a : AnomalyEntry)
    (h : i < l.length) : hget (l.set i a) i = a := by
  unfold hget
  rw [List.getD_eq_getElem?_getD, List.getElem?_set_self h]
  rfl

theorem hget_set_ne (l : List AnomalyEntry) (i j : ℕ) (a : AnomalyEntry)
    (h : i ≠ j) : hget (l.set i a) j = hget l j := by
  unfold hget
  rw [List.getD_eq_getElem?_getD, List.getElem?_set_ne h, ← List.getD_eq_getElem?_getD]

theorem hget_hswap_fst (l : List AnomalyEntry) (i j : ℕ)
    (hi : i < l.length) (hj : j < l.length) : hget (hswap l i j) i = hget l j := by
  unfold hswap
  by_cases hij : i = j
  · subst hij
    rw [hget_set_self _ _ _ (by simpa using hi)]
  · rw [hget_set_ne _ _ _ _ (fun h => hij h.symm), hget_set_self _ _ _ hi]

theorem hget_hswap_snd (l : List AnomalyEntry) (i j : ℕ)
    (hi : i < l.length) (hj : j < l.length) : hget (hswap l i j) j = hget l i := by
  unfold hswap
  rw [hget_set_self _ _ _ (by simpa using hj)]

theorem hget_hswap_other (l : List AnomalyEntry) (i j k : ℕ)
    (hki : k ≠ i) (hkj : k ≠ j) : hget (hswap l i j) k = hget l k := by
  unfold hswap
  rw [hget_set_ne _ _ _ _ (fun h => hkj h.symm), hget_set_ne _ _ _ _ (fun h => hki h.symm)]

theorem getD_cons_set_perm (d : AnomalyEntry) :
    ∀ (t : List AnomalyEntry) (k : ℕ) (a : AnomalyEntry), k < t.length →
      (t.getD k d :: t.set k a).Perm (a :: t) := by
  intro t
  induction t with
  | nil => intro k a hk; exact absurd hk (by simp)
  | cons b t' ih =>
    intro k a hk
    cases k with
    | zero =>
      simp only [List.getD_cons_zero, List.set]
      exact List.Perm.swap a b t'
    | succ m =>
      have hm : m < t'.length := by simpa using hk
      simp only [List.getD_cons_succ, List.set_cons_succ]
      exact ((List.Perm.swap b (t'.getD m d) (t'.set m a)).trans
        ((List.Perm.cons b (ih m a hm)).trans (List.Perm.swap a b t')))

theorem hswap_perm :
    ∀ (l : List AnomalyEntry) (i j : ℕ), i < l.length → j < l.length →
      (hswap l i j).Perm l := by
  intro l
  induction l with
  | nil => intro i j hi; exact absurd hi (by simp)
  | cons a t ih =>
    intro i j hi hj
    cases i with
    | zero =>
      cases j with
      | zero =>
        unfold hswap hget
        simp only [List.getD_cons_zero, List.set]
        exact List.Perm.refl _
      | succ k =>
        have hk : k < t.length := by simpa using hj
        unfold hswap hget
        simp only [List.getD_cons_zero, List.getD_cons_succ, List.set, List.set_cons_succ]
        exact getD_cons_set_perm _ t k a hk
    | succ m =>
      cases j with
      | zero =>
        have hm : m < t.length := by simpa using hi
        unfold hswap hget
        simp only [List.getD_cons_zero, List.getD_cons_succ, List.set, List.set_cons_succ]
        exact getD_cons_set_perm _ t m a hm
      | succ k =>
        have hm : m < t.length := by simpa using hi
        have hk : k < t.length := by simpa using hj
        unfold hswap hget
        simp only [List.getD_cons_succ, List.set_cons_succ]
        exact List.Perm.cons a (ih m k hm hk)

end DealMate.FraudDetection

namespace DealMate.FraudDetection

theorem heapifyUp_perm (cmp : AnomalyEntry → AnomalyEntry → ℚ) :
    ∀ i : ℕ, ∀ l : List AnomalyEntry, i < l.length → (heapifyUp cmp l i).Perm l := by
  intro i
  induction i using Nat.strong_induction_on with
  | _ i ih =>
    intro l hi
    rw [heapifyUp]
    split
    · exact List.Perm.refl l
    · rename_i h0
      dsimp only
      split
      · have hp : (i - 1) / 2 < i := by omega
        refine (ih _ hp (hswap l i ((i - 1) / 2)) ?_).trans
          (hswap_perm l i ((i - 1) / 2) hi (by omega))
        rw [hswap_length]
        omega
      · exact List.Perm.refl l

theorem heapifyUp_inv :
    ∀ i : ℕ, ∀ l : List AnomalyEntry, i < l.length →
      (∀ j, j < l.length → 0 < j → j ≠ i →
        (hget l j).anomalyScore ≤ (hget l ((j - 1) / 2)).anomalyScore) →
      (0 < i → ∀ j, j < l.length → (j - 1) / 2 = i →
        (hget l j).anomalyScore ≤ (hget l ((i - 1) / 2)).anomalyScore) →
      heapInv (heapifyUp anomalyCmp l i) := by
  intro i
  induction i using Nat.strong_induction_on with
  | _ i ih =>
    intro l hi hyp1 hyp2
    rw [heapifyUp]
    split
    · rename_i h0
      subst h0
      intro j hj hj0
      exact hyp1 j hj hj0 (by omega)
    · rename_i h0
      dsimp only
      have hpi : (i - 1) / 2 < i := by omega
      have hpl : (i - 1) / 2 < l.length := by omega
      split
      · rename_i hcmp
        have hscpi : (hget l ((i - 1) / 2)).anomalyScore < (hget l i).anomalyScore := by
          unfold anomalyCmp at hcmp
          linarith
        apply ih ((i - 1) / 2) hpi (hswap l i ((i - 1) / 2)) (by rw [hswap_length]; omega)
        · -- the swapped list is a heap except possibly at the parent position
          intro j hj hj0 hjp
          rw [hswap_length] at hj
          by_cases hji : j = i
          · subst hji
            rw [hget_hswap_fst l j _ hi hpl, hget_hswap_snd l j _ hi hpl]
            exact le_of_lt hscpi
          · rw [hget_hswap_other l i _ j hji hjp]
            by_cases hpj : (j - 1) / 2 = i
            · rw [hpj, hget_hswap_fst l i _ hi hpl]
              exact hyp2 (by omega) j hj hpj
            · by_cases hpj2 : (j - 1) / 2 = (i - 1) / 2
              · rw [hpj2, hget_hswap_snd l i _ hi hpl]
                have h1 := hyp1 j hj hj0 hji
                rw [hpj2] at h1
                exact le_trans h1 (le_of_lt hscpi)
              · rw [hget_hswap_other l i _ ((j - 1) / 2) hpj hpj2]
                exact hyp1 j hj hj0 hji
        · -- the parent's new children stay below the grandparent
          intro hp0 j hj hparent
          rw [hswap_length] at hj
          have hgpi : ((i - 1) / 2 - 1) / 2 ≠ i := by omega
          have hgpp : ((i - 1) / 2 - 1) / 2 ≠ (i - 1) / 2 := by omega
          rw [hget_hswap_other l i _ _ hgpi hgpp]
          by_cases hji : j = i
          · subst hji
            rw [hget_hswap_fst l j _ hi hpl]
            exact hyp1 ((j - 1) / 2) hpl hp0 (by omega)
          · have hjp : j ≠ (i - 1) / 2 := by omega
            rw [hget_hswap_other l i _ j hji hjp]
            have h1 := hyp1 j hj (by omega) hji
            rw [hparent] at h1
            exact le_trans h1 (hyp1 ((i - 1) / 2) hpl hp0 (by omega))
      · rename_i hcmp
        intro j hj hj0
        by_cases hji : j = i
        · subst hji
          unfold anomalyCmp at hcmp
          have : 0 ≤ (hget l ((j - 1) / 2)).anomalyScore - (hget l j).anomalyScore := by
            linarith [not_lt.mp hcmp]
          linarith
        · exact hyp1 j hj hj0 hji

theorem hget_append_left (l l' : List AnomalyEntry) (j : ℕ) (h : j < l.length) :
    hget (l ++ l') j = hget l j := by
  unfold hget
  exact List.getD_append l l' default j h

theorem heapInsert_inv (l : List AnomalyEntry) (v : AnomalyEntry)
    (hinv : heapInv l) : heapInv (heapInsert anomalyCmp l v) := by
  unfold heapInsert
  have hidx : (l ++ [v]).length - 1 = l.length := by simp
  rw [hidx]
  apply heapifyUp_inv l.length (l ++ [v]) (by simp)
  · intro j hj hj0 hji
    have hjl : j < l.length := by
      simp only [List.length_append, List.length_singleton] at hj
      omega
    rw [hget_append_left _ _ _ hjl, hget_append_left _ _ _ (by omega)]
    exact hinv j hjl hj0
  · intro h0 j hj hparent
    simp only [List.length_append, List.length_singleton] at hj
    exact absurd hparent (by omega)

theorem heapInsert_perm (cmp : AnomalyEntry → AnomalyEntry → ℚ)
    (l : List AnomalyEntry) (v : AnomalyEntry) :
    (heapInsert cmp l v).Perm (v :: l) := by
  unfold heapInsert
  refine (heapifyUp_perm cmp _ _ ?_).trans (List.perm_append_singleton v l)
  simp

end DealMate.FraudDetection

namespace DealMate.FraudDetection

theorem smallestIdx_bounds (cmp : AnomalyEntry → AnomalyEntry → ℚ)
    (l : List AnomalyEntry) (i : ℕ) (h : smallestIdx cmp l i ≠ i) :
    i < smallestIdx cmp l i ∧ smallestIdx cmp l i < l.length := by
  unfold smallestIdx at h ⊢
  dsimp only at h ⊢
  by_cases h2 : 2*i+2 < l.length ∧ cmp (hget l (2*i+2))
      (hget l (if 2*i+1 < l.length ∧ cmp (hget l (2*i+1)) (hget l i) < 0 then 2*i+1 else i)) < 0
  · rw [if_pos h2]
    exact ⟨by omega, h2.1⟩
  · rw [if_neg h2] at h ⊢
    by_cases h1 : 2*i+1 < l.length ∧ cmp (hget l (2*i+1)) (hget l i) < 0
    · rw [if_pos h1]
      exact ⟨by omega, h1.1⟩
    · rw [if_neg h1] at h
      exact absurd rfl h

theorem smallestIdx_eq_self (l : List AnomalyEntry) (i : ℕ)
    (h : smallestIdx anomalyCmp l i = i) :
    (2*i+1 < l.length →
      (hget l (2*i+1)).anomalyScore ≤ (hget l i).anomalyScore) ∧
    (2*i+2 < l.length →
      (hget l (2*i+2)).anomalyScore ≤ (hget l i).anomalyScore) := by
  unfold smallestIdx at h
  dsimp only at h
  by_cases h1 : 2*i+1 < l.length ∧ anomalyCmp (hget l (2*i+1)) (hget l i) < 0
  · rw [if_pos h1] at h
    split at h <;> omega
  · rw [if_neg h1] at h
    by_cases h2 : 2*i+2 < l.length ∧ anomalyCmp (hget l (2*i+2)) (hget l i) < 0
    · rw [if_pos h2] at h
      omega
    · constructor
      · intro hlt
        have hc : ¬ anomalyCmp (hget l (2*i+1)) (hget l i) < 0 := fun hc => h1 ⟨hlt, hc⟩
        unfold anomalyCmp at hc
        linarith
      · intro hlt
        have hc : ¬ anomalyCmp (hget l (2*i+2)) (hget l i) < 0 := fun hc => h2 ⟨hlt, hc⟩
        unfold anomalyCmp at hc
        linarith

theorem smallestIdx_spec (l : List AnomalyEntry) (i : ℕ)
    (h : smallestIdx anomalyCmp l i ≠ i) :
    ((hget l i).anomalyScore < (hget l (smallestIdx anomalyCmp l i)).anomalyScore) ∧
    ((smallestIdx anomalyCmp l i = 2*i+1) ∨ (smallestIdx anomalyCmp l i = 2*i+2)) ∧
    (∀ o, (o = 2*i+1 ∨ o = 2*i+2) → o < l.length →
      (hget l o).anomalyScore ≤ (hget l (smallestIdx anomalyCmp l i)).anomalyScore) := by
  unfold smallestIdx at h ⊢
  dsimp only at h ⊢
  by_cases h1 : 2*i+1 < l.length ∧ anomalyCmp (hget l (2*i+1)) (hget l i) < 0
  · rw [if_pos h1] at h ⊢
    have hs1 : (hget l i).anomalyScore < (hget l (2*i+1)).anomalyScore := by
      have hc := h1.2
      unfold anomalyCmp at hc
      linarith
    by_cases h2 : 2*i+2 < l.length ∧ anomalyCmp (hget l (2*i+2)) (hget l (2*i+1)) < 0
    · rw [if_pos h2] at h ⊢
      have hs2 : (hget l (2*i+1)).anomalyScore < (hget l (2*i+2)).anomalyScore := by
        have hc := h2.2
        unfold anomalyCmp at hc
        linarith
      refine ⟨by linarith, Or.inr rfl, ?_⟩
      rintro o (rfl | rfl) ho
      · linarith
      · exact le_refl _
    · rw [if_neg h2] at h ⊢
      refine ⟨hs1, Or.inl rfl, ?_⟩
      rintro o (rfl | rfl) ho
      · exact le_refl _
      · have hc : ¬ anomalyCmp (hget l (2*i+2)) (hget l (2*i+1)) < 0 := fun hc => h2 ⟨ho, hc⟩
        unfold anomalyCmp at hc
        linarith
  · rw [if_neg h1] at h ⊢
    by_cases h2 : 2*i+2 < l.length ∧ anomalyCmp (hget l (2*i+2)) (hget l i) < 0
    · rw [if_pos h2] at h ⊢
      have hs2 : (hget l i).anomalyScore < (hget l (2*i+2)).anomalyScore := by
        have hc := h2.2
        unfold anomalyCmp at hc
        linarith
      refine ⟨hs2, Or.inr rfl, ?_⟩
      rintro o (rfl | rfl) ho
      · have hc : ¬ anomalyCmp (hget l (2*i+1)) (hget l i) < 0 := fun hc => h1 ⟨ho, hc⟩
        unfold anomalyCmp at hc
        linarith
      · exact le_refl _
    · rw [if_neg h2] at h
      exact absurd rfl h

theorem heapifyDown_perm (cmp : AnomalyEntry → AnomalyEntry → ℚ) :
    ∀ (n : ℕ) (l : List AnomalyEntry) (i : ℕ), l.length ≤ i + n →
      (heapifyDown cmp l i).Perm l := by
  intro n
  induction n with
  | zero =>
    intro l i hn
    rw [heapifyDown]
    try dsimp only
    split
    · rename_i hne
      obtain ⟨hb1, hb2⟩ := smallestIdx_bounds cmp l i hne
      exact absurd hb2 (by omega)
    · exact List.Perm.refl l
  | succ n ih =>
    intro l i hn
    rw [heapifyDown]
    try dsimp only
    split
    · rename_i hne
      obtain ⟨hb1, hb2⟩ := smallestIdx_bounds cmp l i hne
      refine (ih (hswap l i (smallestIdx cmp l i)) (smallestIdx cmp l i) ?_).trans
        (hswap_perm l i _ (by omega) hb2)
      rw [hswap_length]
      omega
    · exact List.Perm.refl l

theorem heapifyDown_inv :
    ∀ (n : ℕ) (l : List AnomalyEntry) (i : ℕ), l.length ≤ i + n →
      (∀ j, j < l.length → 0 < j → (j - 1) / 2 ≠ i →
        (hget l j).anomalyScore ≤ (hget l ((j - 1) / 2)).anomalyScore) →
      (0 < i → ∀ j, j < l.length → (j - 1) / 2 = i →
        (hget l j).anomalyScore ≤ (hget l ((i - 1) / 2)).anomalyScore) →
      heapInv (heapifyDown anomalyCmp l i) := by
  intro n
  induction n with
  | zero =>
    intro l i hn hyp1 hyp2
    rw [heapifyDown]
    try dsimp only
    split
    · rename_i hne
      obtain ⟨hb1, hb2⟩ := smallestIdx_bounds anomalyCmp l i hne
      exact absurd hb2 (by omega)
    · intro j hj hj0
      exact hyp1 j hj hj0 (by omega)
  | succ n ih =>
    intro l i hn hyp1 hyp2
    rw [heapifyDown]
    try dsimp only
    split
    · rename_i hne
      obtain ⟨hb1, hb2⟩ := smallestIdx_bounds anomalyCmp l i hne
      obtain ⟨hF1, hcases, hchild⟩ := smallestIdx_spec l i hne
      have hsp : (smallestIdx anomalyCmp l i - 1) / 2 = i := by
        rcases hcases with hc | hc <;> omega
      apply ih (hswap l i (smallestIdx anomalyCmp l i)) (smallestIdx anomalyCmp l i)
        (by rw [hswap_length]; omega)
      · -- heap except possibly below the moved-down element
        intro j hj hj0 hjps
        rw [hswap_length] at hj
        by_cases hjs : j = smallestIdx anomalyCmp l i
        · rw [hjs, hsp, hget_hswap_snd l i _ (by omega) hb2,
            hget_hswap_fst l i _ (by omega) hb2]
          exact le_of_lt hF1
        · by_cases hji : j = i
          · have hi0 : 0 < i := hji ▸ hj0
            rw [hji, hget_hswap_fst l i _ (by omega) hb2,
              hget_hswap_other l i _ ((i - 1) / 2) (by omega) (by omega)]
            exact hyp2 hi0 (smallestIdx anomalyCmp l i) hb2 hsp
          · rw [hget_hswap_other l i _ j hji hjs]
            by_cases hpj : (j - 1) / 2 = i
            · rw [hpj, hget_hswap_fst l i _ (by omega) hb2]
              exact hchild j (by omega) hj
            · rw [hget_hswap_other l i _ ((j - 1) / 2) hpj hjps]
              exact hyp1 j hj hj0 hpj
      · -- the moved-down element's new children stay below its new parent
        intro hs0 j hj hparent
        rw [hswap_length] at hj
        rw [hsp]
        have hjgt : smallestIdx anomalyCmp l i < j := by omega
        rw [hget_hswap_other l i _ j (by omega) (by omega),
          hget_hswap_fst l i _ (by omega) hb2]
        have h1 := hyp1 j hj (by omega) (by rw [hparent]; omega)
        rw [hparent] at h1
        exact h1
    · rename_i hne
      have hsi : smallestIdx anomalyCmp l i = i := not_not.mp (by simpa using hne)
      obtain ⟨hL, hR⟩ := smallestIdx_eq_self l i hsi
      intro j hj hj0
      by_cases hpj : (j - 1) / 2 = i
      · rw [hpj]
        rcases (by omega : j = 2*i+1 ∨ j = 2*i+2) with hc | hc
        · rw [hc]
          exact hL (hc ▸ hj)
        · rw [hc]
          exact hR (hc ▸ hj)
      · exact hyp1 j hj hj0 hpj

end DealMate.FraudDetection

namespace DealMate.FraudDetection

theorem hget_eq_getElem (l : List AnomalyEntry) (i : ℕ) (h : i < l.length) :
    hget l i = l[i] := by
  unfold hget
  rw [List.getD_eq_getElem?_getD, List.getElem?_eq_getElem h]
  rfl

theorem hget_getLast (l : List AnomalyEntry) (h : l ≠ []) :
    hget l (l.length - 1) = l.getLast h := by
  rw [List.getLast_eq_getElem,
    hget_eq_getElem l (l.length - 1) (by have := List.length_pos.mpr h; omega)]

theorem hget_dropLast (l : List AnomalyEntry) (j : ℕ) (hj : j < l.length - 1) :
    hget l.dropLast j = hget l j := by
  have h1 : j < l.dropLast.length := by rw [List.length_dropLast]; omega
  rw [hget_eq_getElem _ j h1, hget_eq_getElem l j (by omega),
    List.getElem_dropLast]

theorem heapInv_le_root (l : List AnomalyEntry) (hinv : heapInv l) :
    ∀ j, j < l.length → (hget l j).anomalyScore ≤ (hget l 0).anomalyScore := by
  intro j
  induction j using Nat.strong_induction_on with
  | _ j ih =>
    intro hj
    rcases Nat.eq_zero_or_pos j with h0 | h0
    · subst h0
      exact le_refl _
    · exact (hinv j hj h0).trans (ih ((j - 1) / 2) (by omega) (by omega))

theorem extractMin_spec (l : List AnomalyEntry) (hne : l ≠ []) (hinv : heapInv l) :
    ∃ h', extractMin anomalyCmp l = (some (hget l 0), h') ∧
      (hget l 0 :: h').Perm l ∧ h'.length = l.length - 1 ∧ heapInv h' ∧
      ∀ b ∈ h', b.anomalyScore ≤ (hget l 0).anomalyScore := by
  match l with
  | [] => exact absurd rfl hne
  | [x] =>
    refine ⟨[], rfl, List.Perm.refl _, rfl, ?_, ?_⟩
    · intro j hj hj0
      simp at hj
    · intro b hb
      simp at hb
  | x :: y :: rest =>
    have hlen : (x :: y :: rest).length = rest.length + 2 := by simp
    have hfl : 2 ≤ (x :: y :: rest).length := by omega
    -- the saved last element and the shrunken working list
    have hl0 : (((x :: y :: rest).dropLast).set 0
        (hget (x :: y :: rest) ((x :: y :: rest).length - 1)))
        = hget (x :: y :: rest) ((x :: y :: rest).length - 1) :: (y :: rest).dropLast := by
      rw [List.dropLast_cons₂]
      rfl
    have hlast : hget (x :: y :: rest) ((x :: y :: rest).length - 1)
        = (y :: rest).getLast (by simp) := by
      rw [hget_getLast (x :: y :: rest) (by simp), List.getLast_cons (by simp)]
    have hl0len : (((x :: y :: rest).dropLast).set 0
        (hget (x :: y :: rest) ((x :: y :: rest).length - 1))).length
        = (x :: y :: rest).length - 1 := by
      rw [List.length_set, List.length_dropLast]
    have hl0get : ∀ j, 0 < j → j < (x :: y :: rest).length - 1 →
        hget (((x :: y :: rest).dropLast).set 0
          (hget (x :: y :: rest) ((x :: y :: rest).length - 1))) j
        = hget (x :: y :: rest) j := by
      intro j hj0 hjl
      rw [hget_set_ne _ _ _ _ (by omega), hget_dropLast _ _ hjl]
    -- membership in the working list comes from the original heap
    have hl0mem : ∀ b, b ∈ (((x :: y :: rest).dropLast).set 0
        (hget (x :: y :: rest) ((x :: y :: rest).length - 1))) →
        ∃ k, k < (x :: y :: rest).length ∧ hget (x :: y :: rest) k = b := by
      intro b hb
      obtain ⟨n, hn, hbn⟩ := List.getElem_of_mem hb
      rw [hl0len] at hn
      rcases Nat.eq_zero_or_pos n with h0 | h0
      · subst h0
        refine ⟨(x :: y :: rest).length - 1, by omega, ?_⟩
        rw [← hbn, ← hget_eq_getElem _ 0 (by rw [hl0len]; omega)]
        rw [hget_set_self _ _ _ (by rw [List.length_dropLast]; omega)]
      · refine ⟨n, by omega, ?_⟩
        rw [← hbn, ← hget_eq_getElem _ n (by rw [hl0len]; omega)]
        exact (hl0get n h0 hn).symm
    refine ⟨heapifyDown anomalyCmp (((x :: y :: rest).dropLast).set 0
      (hget (x :: y :: rest) ((x :: y :: rest).length - 1))) 0, rfl, ?_, ?_, ?_, ?_⟩
    · -- permutation: head + heapified remainder recovers the original heap
      have hp1 := heapifyDown_perm anomalyCmp
        ((((x :: y :: rest).dropLast).set 0
          (hget (x :: y :: rest) ((x :: y :: rest).length - 1))).length)
        (((x :: y :: rest).dropLast).set 0
          (hget (x :: y :: rest) ((x :: y :: rest).length - 1))) 0 (by omega)
      refine (List.Perm.cons _ hp1).trans ?_
      rw [hl0, hlast]
      show (hget (x :: y :: rest) 0 :: (y :: rest).getLast (by simp) :: (y :: rest).dropLast).Perm _
      have hgx : hget (x :: y :: rest) 0 = x := rfl
      rw [hgx]
      refine (List.Perm.cons x (List.perm_append_singleton _ _).symm).trans ?_
      rw [List.dropLast_append_getLast (by simp : y :: rest ≠ [])]
    · rw [(heapifyDown_perm anomalyCmp
        ((((x :: y :: rest).dropLast).set 0
          (hget (x :: y :: rest) ((x :: y :: rest).length - 1))).length)
        _ 0 (by omega)).length_eq, hl0len]
    · -- the shrunken list re-heapifies
      apply heapifyDown_inv (((x :: y :: rest).dropLast).set 0
        (hget (x :: y :: rest) ((x :: y :: rest).length - 1))).length _ 0 (by omega)
      · intro j hj hj0 hpj
        rw [hl0len] at hj
        rw [hl0get j hj0 hj, hl0get ((j - 1) / 2) (by omega) (by omega)]
        exact hinv j (by omega) hj0
      · intro h0
        exact absurd h0 (lt_irrefl 0)
    · -- everything left is below the extracted root
      intro b hb
      have hbmem : b ∈ (((x :: y :: rest).dropLast).set 0
          (hget (x :: y :: rest) ((x :: y :: rest).length - 1))) :=
        (heapifyDown_perm anomalyCmp
          ((((x :: y :: rest).dropLast).set 0
            (hget (x :: y :: rest) ((x :: y :: rest).length - 1))).length)
          _ 0 (by omega)).mem_iff.mp hb
      obtain ⟨k, hk, hkb⟩ := hl0mem b hbmem
      rw [← hkb]
      exact heapInv_le_root _ hinv k hk

end DealMate.FraudDetection

namespace DealMate.FraudDetection

theorem extractLoop_spec :
    ∀ (count : ℕ) (heap : List AnomalyEntry), heapInv heap →
      heapInv (extractLoop anomalyCmp heap count).2 ∧
      ((extractLoop anomalyCmp heap count).1
        ++ (extractLoop anomalyCmp heap count).2).Perm heap ∧
      (extractLoop anomalyCmp heap count).1.length = min count heap.length ∧
      List.Chain' (fun a b => b.anomalyScore ≤ a.anomalyScore)
        (extractLoop anomalyCmp heap count).1 ∧
      ∀ a ∈ (extractLoop anomalyCmp heap count).1,
        ∀ b ∈ (extractLoop anomalyCmp heap count).2,
          b.anomalyScore ≤ a.anomalyScore := by
  intro count
  induction count with
  | zero =>
    intro heap hinv
    have h0 : extractLoop anomalyCmp heap 0 = ([], heap) := rfl
    rw [h0]
    refine ⟨hinv, List.Perm.refl _, by simp, List.chain'_nil, ?_⟩
    intro a ha
    exact absurd ha (List.not_mem_nil a)
  | succ n ih =>
    intro heap hinv
    by_cases hne : heap.length = 0
    · have h0 : extractLoop anomalyCmp heap (n + 1) = ([], heap) := by
        simp only [extractLoop]
        rw [if_pos hne]
      rw [h0]
      refine ⟨hinv, List.Perm.refl _, by simp [hne], List.chain'_nil, ?_⟩
      intro a ha
      exact absurd ha (List.not_mem_nil a)
    · have hnee : heap ≠ [] := by
        intro h
        rw [h] at hne
        exact hne rfl
      obtain ⟨h', hmin, hperm, hlen, hinv', hbelow⟩ := extractMin_spec heap hnee hinv
      have hstep : extractLoop anomalyCmp heap (n + 1)
          = (hget heap 0 :: (extractLoop anomalyCmp h' n).1,
             (extractLoop anomalyCmp h' n).2) := by
        simp only [extractLoop]
        rw [if_neg hne, hmin]
      obtain ⟨ih1, ih2, ih3, ih4, ih5⟩ := ih h' hinv'
      have hsub1 : ∀ a ∈ (extractLoop anomalyCmp h' n).1, a ∈ h' := by
        intro a ha
        exact ih2.mem_iff.mp (List.mem_append.mpr (Or.inl ha))
      have hsub2 : ∀ b ∈ (extractLoop anomalyCmp h' n).2, b ∈ h' := by
        intro b hb
        exact ih2.mem_iff.mp (List.mem_append.mpr (Or.inr hb))
      rw [hstep]
      refine ⟨ih1, ?_, ?_, ?_, ?_⟩
      · exact (List.Perm.cons _ ih2).trans hperm
      · show ((hget heap 0 :: (extractLoop anomalyCmp h' n).1)).length = _
        rw [List.length_cons, ih3, hlen]
        omega
      · rcases hr1 : (extractLoop anomalyCmp h' n).1 with _ | ⟨a, t⟩
        · exact List.chain'_singleton _
        · rw [List.chain'_cons]
          refine ⟨?_, hr1 ▸ ih4⟩
          apply hbelow
          apply hsub1
          rw [hr1]
          exact List.mem_cons_self a t
      · intro a ha b hb
        rcases List.mem_cons.mp ha with h0 | h0
        · rw [h0]
          exact hbelow b (hsub2 b hb)
        · exact ih5 a h0 b hb

theorem foldl_heapInsert_perm :
    ∀ (xs h : List AnomalyEntry),
      (xs.foldl (fun acc a => heapInsert anomalyCmp acc a) h).Perm (xs ++ h) := by
  intro xs
  induction xs with
  | nil =>
    intro h
    exact List.Perm.refl h
  | cons x xs ih =>
    intro h
    show (xs.foldl _ (heapInsert anomalyCmp h x)).Perm _
    refine (ih (heapInsert anomalyCmp h x)).trans ?_
    refine (List.Perm.append_left xs (heapInsert_perm anomalyCmp h x)).trans ?_
    exact List.perm_middle

end DealMate.FraudDetection

namespace DealMate.FraudDetection

/-- C5: when the engine's anomaly heap satisfies the binary-heap ordering
invariant (as it always does when built by the engine's own record/insert
operations), `getTopAnomalies count` returns `min count (heap size)` entries
in non-increasing `anomalyScore` order which dominate everything left
unreturned (so they are the entries with the largest scores), and the heap
held in the resulting state is a permutation — the same multiset — of the
heap before the call, since every extracted entry is re-inserted. -/
theorem getTopAnomalies_spec (st : EngineState) (count : ℕ)
    (hinv : heapInv st.anomalyHeap) :
    (getTopAnomalies st count).1.length = min count st.anomalyHeap.length ∧
    List.Chain' (fun a b => b.anomalyScore ≤ a.anomalyScore)
      (getTopAnomalies st count).1 ∧
    (∃ rem, ((getTopAnomalies st count).1 ++ rem).Perm st.anomalyHeap ∧
      ∀ a ∈ (getTopAnomalies st count).1, ∀ b ∈ rem,
        b.anomalyScore ≤ a.anomalyScore) ∧
    ((getTopAnomalies st count).2.anomalyHeap).Perm st.anomalyHeap := by
  have hg : getTopAnomalies st count
      = ((extractLoop anomalyCmp st.anomalyHeap count).1,
         { st with anomalyHeap := List.foldl (fun acc a => heapInsert anomalyCmp acc a) (extractLoop anomalyCmp st.anomalyHeap count).2 (extractLoop anomalyCmp st.anomalyHeap count).1 }) := by
    unfold getTopAnomalies
    cases hres : extractLoop anomalyCmp st.anomalyHeap count with
    | mk a h => rfl
  obtain ⟨hs1, hs2, hs3, hs4, hs5⟩ := extractLoop_spec count st.anomalyHeap hinv
  rw [hg]
  refine ⟨hs3, hs4, ⟨(extractLoop anomalyCmp st.anomalyHeap count).2, hs2, hs5⟩, ?_⟩
  exact (foldl_heapInsert_perm _ _).trans hs2

theorem getTopAnomalies_spec_witness :
    heapInv ({ initialState 0 with anomalyHeap := heapABC } : EngineState).anomalyHeap ∧
    ((getTopAnomalies { initialState 0 with anomalyHeap := heapABC } 2).1.length
       = min 2 ({ initialState 0 with anomalyHeap := heapABC } : EngineState).anomalyHeap.length ∧
     List.Chain' (fun a b => b.anomalyScore ≤ a.anomalyScore)
       (getTopAnomalies { initialState 0 with anomalyHeap := heapABC } 2).1 ∧
     (∃ rem, ((getTopAnomalies { initialState 0 with anomalyHeap := heapABC } 2).1
         ++ rem).Perm ({ initialState 0 with anomalyHeap := heapABC } : EngineState).anomalyHeap ∧
       ∀ a ∈ (getTopAnomalies { initialState 0 with anomalyHeap := heapABC } 2).1, ∀ b ∈ rem,
         b.anomalyScore ≤ a.anomalyScore) ∧
     ((getTopAnomalies { initialState 0 with anomalyHeap := heapABC } 2).2.anomalyHeap).Perm
       ({ initialState 0 with anomalyHeap := heapABC } : EngineState).anomalyHeap) :=
  ⟨by decide, getTopAnomalies_spec { initialState 0 with anomalyHeap := heapABC } 2 (by decide)⟩

end DealMate.FraudDetection
